import Mathlib

/-!
# Weighted round-robin load balancer (`sandbox_lb`)

A shallow embedding of `wrr.go`: the registry of servers, the selection cursor
(`index`, `currentWeight`), the selection loop of `nextServer`, and the registry
mutations `UpsertServer` / `RemoveServer`; and of `sticky.go`: the cookie-based adapter
`StickyLB`, with the part of `net/http` that decides which cookie a response carries.

Modelling conventions.

* Go `int` is modelled by `Int`.  No operation of the file can overflow on weights
  that fit a machine word: the only arithmetic is `index + 1`, `currentWeight - gcd`
  and `a % b`, all bounded by the operands.  Go `%` truncates toward zero, which is
  `Int.tmod`.
* `[]*server` is modelled by `List (server H)`.  Every pointer stored in the slice
  comes from a distinct allocation (`&server{...}` in `UpsertServer`), so a write
  through the pointer returned by `FindServerByID` is a write to the list position
  that `FindServerByID` reports.
* Functions that mutate the receiver take the state and return the new state together
  with their Go return value.
* The `for { ... }` loop of `nextServer` has no bound in the source; the embedding
  runs it with a fuel counter and returns `none` when the fuel is exhausted.
* The mutex is not modelled: every operation is one atomic state transition.
-/

set_option linter.dupNamespace false

namespace SandboxLB

/-- The constant `defaultWeight` of `wrr.go`. -/
def defaultWeight : Int := 0

/-- The struct `server`: identity, opaque handler, relative weight. -/
structure server (H : Type) where
  id : String
  server : H
  weight : Int

/-- The struct `RoundRobin` without its mutex. -/
structure RoundRobin (H : Type) where
  index : Int
  servers : List (server H)
  currentWeight : Int

/-- How a call ends abnormally: an `error` value built by `fmt.Errorf`, or a run-time
panic (slice index out of range). -/
inductive Failure where
  | error (msg : String)
  | panic (msg : String)
  deriving DecidableEq

/-- The type `ServerOption`, `func(*server) error`: the server as the call leaves it,
and the returned error (`none` is `nil`). -/
def ServerOption (H : Type) : Type := server H → server H × Option String

/-- The option constructor `Weight`. -/
def Weight {H : Type} (w : Int) : ServerOption H := fun s =>
  if w < 0 then (s, some "Weight should be >= 0")
  else ({ s with weight := w }, none)

/-- The constructor `New`: empty registry, `index = -1`; `currentWeight` is the zero
value. -/
def New {H : Type} : RoundRobin H :=
  { index := -1, servers := [], currentWeight := 0 }

/-- The function `gcd` (Euclid's loop on Go integers).  The loop runs at most
`|b| + 1` times because `|a % b| < |b|`. -/
def gcdLoop : Nat → Int → Int → Int
  | 0, a, _ => a
  | fuel + 1, a, b => if b ≠ 0 then gcdLoop fuel b (Int.tmod a b) else a

/-- The function `gcd` of `wrr.go`. -/
def gcd (a b : Int) : Int := gcdLoop (b.natAbs + 1) a b

/-- The method `maxWeight`: a left-to-right scan starting from `-1`. -/
def maxWeight {H : Type} (r : RoundRobin H) : Int :=
  r.servers.foldl (fun max s => if s.weight > max then s.weight else max) (-1)

/-- The method `weightGcd`: a left-to-right scan starting from the sentinel `-1`. -/
def weightGcd {H : Type} (r : RoundRobin H) : Int :=
  r.servers.foldl (fun divisor s => if divisor = -1 then s.weight else gcd divisor s.weight) (-1)

/-- The `range` loop of `FindServerByID`, `i` being the position of the head. -/
def findFrom {H : Type} (id : String) : List (server H) → Nat → Option (server H) × Int
  | [], _ => (none, -1)
  | s :: rest, i => if s.id = id then (some s, (i : Int)) else findFrom id rest (i + 1)

/-- The method `FindServerByID`: the first server with the identity and its position,
or `(nil, -1)`. -/
def FindServerByID {H : Type} (r : RoundRobin H) (id : String) : Option (server H) × Int :=
  if r.servers.length = 0 then (none, -1) else findFrom id r.servers 0

/-- The method `resetIterator`. -/
def resetIterator {H : Type} (r : RoundRobin H) : RoundRobin H :=
  { r with index := -1, currentWeight := 0 }

/-- The method `resetState`. -/
def resetState {H : Type} (r : RoundRobin H) : RoundRobin H := resetIterator r

/-- How one pass through the body of the `for` loop of `nextServer` ends: with a
`return`, or at the end of the body (the loop goes round again). -/
inductive Iteration (H : Type) where
  | returned (result : Except Failure (server H)) (r : RoundRobin H)
  | again (r : RoundRobin H)

/-- The statements `srv := r.servers[r.index]; if srv.weight >= r.currentWeight { return
srv, nil }` that end the loop body. -/
def loopTail {H : Type} (r : RoundRobin H) : Iteration H :=
  if r.index < 0 then .returned (.error (.panic "index out of range")) r
  else
    match r.servers[r.index.toNat]? with
    | none => .returned (.error (.panic "index out of range")) r
    | some srv => if srv.weight ≥ r.currentWeight then .returned (.ok srv) r else .again r

/-- One pass through the body of the `for` loop of `nextServer`. -/
def loopBody {H : Type} (gcd max : Int) (r : RoundRobin H) : Iteration H :=
  let r1 : RoundRobin H := { r with index := Int.tmod (r.index + 1) r.servers.length }
  if r1.index = 0 then
    let r2 : RoundRobin H := { r1 with currentWeight := r1.currentWeight - gcd }
    if r2.currentWeight ≤ 0 then
      let r3 : RoundRobin H := { r2 with currentWeight := max }
      if r3.currentWeight = 0 then
        .returned (.error (.error "all servers have 0 weight")) r3
      else loopTail r3
    else loopTail r2
  else loopTail r1

/-- The `for` loop of `nextServer`, run for at most `fuel` passes. -/
def nextServerLoop {H : Type} (gcd max : Int) :
    Nat → RoundRobin H → Option (Except Failure (server H) × RoundRobin H)
  | 0, _ => none
  | fuel + 1, r =>
    match loopBody gcd max r with
    | .returned result r1 => some (result, r1)
    | .again r1 => nextServerLoop gcd max fuel r1

/-- The method `nextServer`; `fuel` bounds the number of loop iterations. -/
def nextServer {H : Type} (fuel : Nat) (r : RoundRobin H) :
    Option (Except Failure (server H) × RoundRobin H) :=
  if r.servers.length = 0 then
    some (.error (.error "no servers in the pool"), r)
  else
    nextServerLoop (weightGcd r) (maxWeight r) fuel r

/-- The method `NextServer`: it forwards the result of `nextServer`. -/
def NextServer {H : Type} (fuel : Nat) (r : RoundRobin H) :
    Option (Except Failure (server H) × RoundRobin H) :=
  match nextServer fuel r with
  | none => none
  | some (.error e, r1) => some (.error e, r1)
  | some (.ok srv, r1) => some (.ok srv, r1)

/-- The loop `for _, o := range options { if err := o(s); err != nil { return err } }`
on the server behind the pointer `s`: the server as the loop leaves it, and the error
that ended it, if any. -/
def applyOptions {H : Type} : List (ServerOption H) → server H → server H × Option String
  | [], s => (s, none)
  | o :: rest, s =>
    match o s with
    | (s1, some err) => (s1, some err)
    | (s1, none) => applyOptions rest s1

/-- The method `RemoveServer`. -/
def RemoveServer {H : Type} (r : RoundRobin H) (id : String) : RoundRobin H × Option String :=
  match FindServerByID r id with
  | (none, _) => (r, some "server not found")
  | (some _, index) =>
    let r1 : RoundRobin H :=
      { r with servers := r.servers.take index.toNat ++ r.servers.drop (index.toNat + 1) }
    (resetState r1, none)

/-- The method `ServerWeight`. -/
def ServerWeight {H : Type} (r : RoundRobin H) (id : String) : Int × Bool :=
  match FindServerByID r id with
  | (some s, _) => (s.weight, true)
  | (none, _) => (-1, false)

/-- The method `UpsertServer`.  In the first branch the options write through the
pointer into the registry, so the server they leave is stored back at its position
whether or not the loop ended with an error. -/
def UpsertServer {H : Type} (r : RoundRobin H) (id : String) (handler : H)
    (options : List (ServerOption H)) : RoundRobin H × Option String :=
  match FindServerByID r id with
  | (some s, index) =>
    match applyOptions options s with
    | (s1, some err) => ({ r with servers := r.servers.set index.toNat s1 }, some err)
    | (s1, none) => (resetState { r with servers := r.servers.set index.toNat s1 }, none)
  | (none, _) =>
    let srv : server H := { id := id, server := handler, weight := 0 }
    match applyOptions options srv with
    | (_, some err) => (r, some err)
    | (srv1, none) =>
      let srv2 : server H := if srv1.weight = 0 then { srv1 with weight := defaultWeight } else srv1
      (resetState { r with servers := r.servers ++ [srv2] }, none)

/-! ### Sequences of calls -/

/-- The state after `k` consecutive `NextServer` calls (`none` if one of them runs out
of fuel). -/
def afterCalls {H : Type} (fuel : Nat) : Nat → RoundRobin H → Option (RoundRobin H)
  | 0, r => some r
  | k + 1, r =>
    match NextServer fuel r with
    | none => none
    | some (_, r1) => afterCalls fuel k r1

/-- The result of call number `k` (counted from 0) of a run of consecutive `NextServer`
calls, with the state it leaves. -/
def nthCall {H : Type} (fuel : Nat) (r : RoundRobin H) (k : Nat) :
    Option (Except Failure (server H) × RoundRobin H) :=
  match afterCalls fuel k r with
  | none => none
  | some r1 => NextServer fuel r1

/-- The identity returned by call number `k`, when that call returns a server. -/
def nthId {H : Type} (fuel : Nat) (r : RoundRobin H) (k : Nat) : Option String :=
  match nthCall fuel r k with
  | some (.ok srv, _) => some srv.id
  | _ => none

/-- The registry position selected by call number `k`: the cursor index the call leaves,
when the call returns a server. -/
def nthPos {H : Type} (fuel : Nat) (r : RoundRobin H) (k : Nat) : Option Int :=
  match nthCall fuel r k with
  | some (.ok _, r1) => some r1.index
  | _ => none

/-- A registry built from `(id, handler, weight)` triples with a freshly reset cursor. -/
def fresh {H : Type} (servers : List (server H)) : RoundRobin H :=
  { index := -1, servers := servers, currentWeight := 0 }

/-! ### The schedule of the selection loop

Auxiliary definitions used to state how the cursor moves: they describe the loop, they are
not part of the source. -/

/-- The greatest common divisor of a list of integers (0 for the empty list). -/
def gcdAll (ws : List Int) : Nat := ws.foldr (fun w d => Nat.gcd w.natAbs d) 0

/-- The weights of a registry in registration order. -/
def weights {H : Type} (l : List (server H)) : List Int := l.map (fun s => s.weight)

/-- The first position at or after `s` where `p` holds, looking at most `f` positions
ahead. -/
def nextEmit (p : Nat → Bool) : Nat → Nat → Nat
  | 0, s => s
  | f + 1, s => if p s then s else nextEmit p f (s + 1)

/-- The number of loop passes made before call number `k` begins, when every call scans
at most `n` positions. -/
def callStart (p : Nat → Bool) (n : Nat) : Nat → Nat
  | 0 => 0
  | k + 1 => nextEmit p n (callStart p n k) + 1

/-- The loop pass (counted from 0 since the reset) at which call number `k` returns. -/
def callStep (p : Nat → Bool) (n : Nat) (k : Nat) : Nat := nextEmit p n (callStart p n k)

/-- Whether the loop pass number `s` (counted from 0 since the reset) returns a server,
for `n` servers whose weights are `a i` times the step and whose largest weight is `M`
times the step: the pass looks at position `s % n` in round `s / n`. -/
def emitsAt (n M : Nat) (a : Nat → Nat) (s : Nat) : Bool :=
  decide (M ≤ a (s % n) + (s / n) % M)

/-- The weight of position `i` of the registry, counted in steps of the gcd. -/
def unitsAt {H : Type} (l : List (server H)) (i : Nat) : Nat :=
  match l[i]? with
  | some s => s.weight.toNat / gcdAll (weights l)
  | none => 0

/-- The number of rounds of one period: the largest weight, counted in steps of the gcd. -/
def rounds {H : Type} (l : List (server H)) : Nat :=
  (maxWeight (fresh l)).toNat / gcdAll (weights l)

/-- Whether loop pass number `s` since the reset returns a server. -/
def selects {H : Type} (l : List (server H)) (s : Nat) : Bool :=
  emitsAt l.length (rounds l) (unitsAt l) s

/-- The cursor after loop pass number `s` since the reset: position `s % n`, threshold
`max - ((s / n) % rounds) * gcd`. -/
def cursorAfter {H : Type} (l : List (server H)) (s : Nat) : RoundRobin H :=
  { index := ((s % l.length : Nat) : Int),
    servers := l,
    currentWeight := (((rounds l - (s / l.length) % rounds l) * gcdAll (weights l) : Nat) : Int) }

/-- The cursor before loop pass number `s` since the reset. -/
def cursorBefore {H : Type} (l : List (server H)) : Nat → RoundRobin H
  | 0 => fresh l
  | s + 1 => cursorAfter l s

/-- The number of calls in one period of the selection sequence: the sum of the weights
divided by their gcd. -/
def cycleLength {H : Type} (l : List (server H)) : Nat :=
  ((weights l).sum / (gcdAll (weights l) : Int)).toNat

/-! ### Concrete registries used as examples -/

/-- The registry `[A weight 3, B weight 1]` with unit handlers. -/
def registryAB : List (server Unit) := [⟨"A", (), 3⟩, ⟨"B", (), 1⟩]

/-- The registry `[a, b]`, both of weight 0, as two `UpsertServer` calls on `New` build it. -/
def zeroPool : RoundRobin Unit :=
  (UpsertServer (UpsertServer New "a" () [Weight 0]).1 "b" () [Weight 0]).1

/-- The registry `[a weight w]` after one `NextServer` call has moved the cursor. -/
def usedPool (w : Int) : RoundRobin Unit :=
  match NextServer 1 (UpsertServer New "a" () [Weight w]).1 with
  | some (_, r) => r
  | none => New

/-- The state of `usedPool 5` after the failed call
`UpsertServer("a", h, Weight(0), Weight(-1))`. -/
def stalePool : RoundRobin Unit :=
  (UpsertServer (usedPool 5) "a" () [Weight 0, Weight (-1)]).1

/-- The registry of the test "One server with 0 weight": `test1`, `test2`, `test3` with
weights 1, 0, 1. -/
def registryOneZero : List (server Unit) :=
  [⟨"test1", (), 1⟩, ⟨"test2", (), 0⟩, ⟨"test3", (), 1⟩]

/-- The registry of the test "All server with 1 weight": `test1`, `test2`, `test3`, each
of weight 1. -/
def registryOnes : List (server Unit) :=
  [⟨"test1", (), 1⟩, ⟨"test2", (), 1⟩, ⟨"test3", (), 1⟩]

/-- The states that a sequence of `UpsertServer`, `RemoveServer` and `NextServer` calls
reaches from `New`.  The options of `UpsertServer` are `Weight` options of any integers,
the only options there are: `server` is unexported, so no option can be written outside
the package, and `Weight` is the only one inside.  A `NextServer` call counts when it
returns, with an endpoint or with an error. -/
inductive Reachable {H : Type} : RoundRobin H → Prop where
  | init : Reachable New
  | upsert (r : RoundRobin H) (id : String) (handler : H) (ws : List Int) :
      Reachable r → Reachable (UpsertServer r id handler (ws.map Weight)).1
  | remove (r : RoundRobin H) (id : String) : Reachable r → Reachable (RemoveServer r id).1
  | next (r : RoundRobin H) (fuel : Nat) (result : Except Failure (server H))
      (r1 : RoundRobin H) :
      Reachable r → NextServer fuel r = some (result, r1) → Reachable r1

/-! ### The sticky adapter (`sticky.go`)

`net/http` is outside the repository.  Of a request the adapter reads only
`req.Cookie(name)`; of the response writer it uses `http.SetCookie`, `WriteHeader` and
`Write`; the handler of the chosen server is called last and is not modelled: the
embedding records which server's handler is called and with which writer. -/

/-- The part of `*http.Request` that the adapter reads: `req.Cookie(name)`, the value of
the named cookie, or `none` for `http.ErrNoCookie`. -/
structure Request where
  Cookie : String → Option String

/-- The fields of `http.Cookie` that `StickBackend` sets; the other fields keep their zero
value. -/
structure Cookie where
  Name : String
  Value : String
  Path : String
  deriving DecidableEq

/-- The state of an `http.ResponseWriter`: the `Set-Cookie` header lines added so far, the
status passed to `WriteHeader`, the bytes passed to `Write`. -/
structure ResponseWriter where
  setCookie : List String
  status : Option Nat
  body : String
  deriving DecidableEq

/-- A response writer on which nothing has been written. -/
def emptyWriter : ResponseWriter := { setCookie := [], status := none, body := "" }

/-! #### `http.SetCookie`

The functions of `net/http` (`cookie.go`) that decide what `http.SetCookie` adds to the
response.  They belong to the Go standard library, not to the repository; they are
embedded because `StickBackend` hands them the cookie name and the server identity
unchecked.  Go strings are byte strings: both validity tests below refuse every byte from
`0x7f` on, hence every byte of a non-ASCII character, so that testing characters is
testing bytes. -/

/-- The function `httpguts.IsTokenRune`: the characters of an HTTP token. -/
def isTokenRune (c : Char) : Bool :=
  c.toNat = 0x21 || (0x23 ≤ c.toNat && c.toNat ≤ 0x27) || c.toNat = 0x2a || c.toNat = 0x2b
    || c.toNat = 0x2d || c.toNat = 0x2e || (0x30 ≤ c.toNat && c.toNat ≤ 0x39)
    || (0x41 ≤ c.toNat && c.toNat ≤ 0x5a) || (0x5e ≤ c.toNat && c.toNat ≤ 0x7a)
    || c.toNat = 0x7c || c.toNat = 0x7e

/-- The function `isCookieNameValid`: a non-empty string of token characters. -/
def isCookieNameValid (raw : String) : Bool :=
  raw ≠ "" && raw.toList.all isTokenRune

/-- The function `validCookieValueByte`: printable ASCII other than the double quote
(`0x22`), the semicolon (`0x3b`) and the backslash (`0x5c`). -/
def validCookieValueByte (c : Char) : Bool :=
  0x20 ≤ c.toNat && c.toNat < 0x7f && c.toNat ≠ 0x22 && c.toNat ≠ 0x3b && c.toNat ≠ 0x5c

/-- The function `validCookiePathByte`: printable ASCII other than the semicolon. -/
def validCookiePathByte (c : Char) : Bool :=
  0x20 ≤ c.toNat && c.toNat < 0x7f && c.toNat ≠ 0x3b

/-- The function `sanitizeOrWarn`, without its log line: the bytes that are not valid are
dropped. -/
def sanitizeOrWarn (valid : Char → Bool) (v : String) : String :=
  String.mk (v.toList.filter valid)

/-- The double quote character. -/
def doubleQuote : String := String.singleton (Char.ofNat 0x22)

/-- The function `sanitizeCookieValue`: invalid bytes are dropped, and what is left is put
in double quotes when it contains a space (`0x20`) or a comma (`0x2c`). -/
def sanitizeCookieValue (v : String) : String :=
  let v1 := sanitizeOrWarn validCookieValueByte v
  if v1.toList.any (fun c => c.toNat = 0x20 || c.toNat = 0x2c) then
    doubleQuote ++ v1 ++ doubleQuote
  else v1

/-- The function `sanitizeCookiePath`. -/
def sanitizeCookiePath (v : String) : String := sanitizeOrWarn validCookiePathByte v

/-- The method `(*Cookie).String` on a cookie whose fields other than `Name`, `Value` and
`Path` have their zero value: the empty string for an invalid name, else `Name=Value`
followed by `; Path=...` for a non-empty path. -/
def cookieString (c : Cookie) : String :=
  if isCookieNameValid c.Name then
    c.Name ++ "=" ++ sanitizeCookieValue c.Value
      ++ (if c.Path ≠ "" then "; Path=" ++ sanitizeCookiePath c.Path else "")
  else ""

/-- The function `http.SetCookie`: it adds the `Set-Cookie` line of the cookie, unless
that line is empty. -/
def SetCookie (w : ResponseWriter) (cookie : Cookie) : ResponseWriter :=
  if cookieString cookie ≠ "" then { w with setCookie := w.setCookie ++ [cookieString cookie] }
  else w

/-- The struct `StickyLB`.  The embedded `Balancer` interface is held by a `RoundRobin`,
its only implementation in the repository. -/
structure StickyLB (H : Type) where
  Balancer : RoundRobin H
  cookieName : String

/-- The block `nextServer, err := s.Balancer.NextServer(); if err != nil { return nil, err };
return nextServer, nil`, which `GetBackend` contains twice. -/
def StickyLB.nextBackend {H : Type} (fuel : Nat) (s : StickyLB H) :
    Option (Except Failure (Option (server H)) × StickyLB H) :=
  match NextServer fuel s.Balancer with
  | none => none
  | some (.error err, r) => some (.error err, { s with Balancer := r })
  | some (.ok nextServer, r) => some (.ok (some nextServer), { s with Balancer := r })

/-- The method `StickyLB.GetBackend`.  The returned `*server` is `none` for `nil`. -/
def StickyLB.GetBackend {H : Type} (fuel : Nat) (s : StickyLB H) (req : Request) :
    Option (Except Failure (Option (server H)) × StickyLB H) :=
  match req.Cookie s.cookieName with
  | none => StickyLB.nextBackend fuel s
  | some value =>
    match FindServerByID s.Balancer value with
    | (srv, idx) =>
      if idx = -1 then StickyLB.nextBackend fuel s
      else some (.ok srv, s)

/-- The method `StickyLB.StickBackend`: `http.SetCookie` on the cookie with name
`cookieName`, value `id` and path `/`. -/
def StickyLB.StickBackend {H : Type} (s : StickyLB H) (id : String) (w : ResponseWriter) :
    ResponseWriter :=
  SetCookie w { Name := s.cookieName, Value := id, Path := "/" }

/-- How `StickyLB.ServeHTTP` ends: it has written an error reply, or it calls the handler
of `srv` with the writer `w`, or it panics. -/
inductive Served (H : Type) where
  | replied (w : ResponseWriter)
  | dispatched (w : ResponseWriter) (srv : server H)
  | panicked (msg : String)

/-- The constant `http.StatusInternalServerError`. -/
def StatusInternalServerError : Nat := 500

/-- The function `http.StatusText` at the one status the package uses. -/
def StatusText (code : Nat) : String :=
  if code = 500 then "Internal Server Error" else ""

/-- The method `StickyLB.ServeHTTP`.  `isHandler h` tells whether the type assertion
`h.(http.Handler)` succeeds. -/
def StickyLB.ServeHTTP {H : Type} (isHandler : H → Bool) (fuel : Nat) (r : StickyLB H)
    (w : ResponseWriter) (req : Request) : Option (Served H × StickyLB H) :=
  match StickyLB.GetBackend fuel r req with
  | none => none
  | some (.error (.panic msg), r1) => some (.panicked msg, r1)
  | some (.error (.error err), r1) =>
    let statusCode := StatusInternalServerError
    some (.replied { w with status := some statusCode,
                            body := w.body ++ (StatusText statusCode ++ err) }, r1)
  | some (.ok none, r1) => some (.panicked "nil pointer dereference", r1)
  | some (.ok (some server), r1) =>
    if isHandler server.server then
      some (.dispatched (StickyLB.StickBackend r server.id w) server, r1)
    else
      let statusCode := StatusInternalServerError
      some (.replied { w with status := some statusCode,
                              body := w.body ++ StatusText statusCode }, r1)

/-- A run of `StickyLB.ServeHTTP` over consecutive requests, each with its own response
writer: how each request ended, and the final state. -/
def serveAll {H : Type} (isHandler : H → Bool) (fuel : Nat) :
    StickyLB H → List (ResponseWriter × Request) → Option (List (Served H) × StickyLB H)
  | r, [] => some ([], r)
  | r, (w, req) :: rest =>
    match StickyLB.ServeHTTP isHandler fuel r w req with
    | none => none
    | some (out, r1) =>
      match serveAll isHandler fuel r1 rest with
      | none => none
      | some (outs, r2) => some (out :: outs, r2)

/-- The sticky balancer of `TestSticky`: cookie name `test`, servers `test1`, `test2`,
`test3` of weight 1 added by `UpsertServer`; every handler is an `http.Handler`. -/
def stickyOnes : StickyLB Unit :=
  { Balancer := (UpsertServer (UpsertServer (UpsertServer New "test1" () [Weight 1]).1
      "test2" () [Weight 1]).1 "test3" () [Weight 1]).1,
    cookieName := "test" }

/-- A request that carries the cookie `name=value` and no other. -/
def requestWith (name value : String) : Request :=
  { Cookie := fun n => if n = name then some value else none }

/-- A request without cookies. -/
def requestPlain : Request := { Cookie := fun _ => none }

/-! ### The naive schedule of claim C19 -/

/-- The largest of a list of non-negative integers (0 for the empty list). -/
def maxAll (ws : List Int) : Int := ws.foldr max 0

/-- The list `R` of the naive nested loop, written from the words of the claim, not from
the code: with `g` the gcd and `m` the maximum of the weights, for each threshold
`t = m, m - g, m - 2g, ..., g` in that order, for each position `i = 0 .. n-1` in
registration order, position `i` is listed when `w_i >= t`. -/
def naiveSchedule {H : Type} (l : List (server H)) : List Nat :=
  ((List.range (maxAll (weights l) / (gcdAll (weights l) : Int)).toNat).map
      (fun j : Nat => maxAll (weights l) - (j : Int) * (gcdAll (weights l) : Int))).flatMap
    (fun t => (List.range l.length).filter
      (fun i => match l[i]? with
        | some s => decide (t ≤ s.weight)
        | none => false))

/-- The `Set-Cookie` line of a cookie with the given name, the value `id` as it stands
(in double quotes when it contains a space or a comma) and path `/`. -/
def stickyLine (name id : String) : String :=
  name ++ "="
    ++ (if id.toList.any (fun c => c.toNat = 0x20 || c.toNat = 0x2c) then
          doubleQuote ++ id ++ doubleQuote
        else id)
    ++ "; Path=/"

/-- The states that `UpsertServer` calls (with `Weight` options of any integers),
`RemoveServer` calls for identities other than `id`, and returning `NextServer` calls
reach from `r`: the runs in which the server of identity `id` is not removed. -/
inductive KeepsRegistered {H : Type} (id : String) (r : RoundRobin H) : RoundRobin H → Prop where
  | start : KeepsRegistered id r r
  | upsert (r1 : RoundRobin H) (id1 : String) (handler : H) (ws : List Int) :
      KeepsRegistered id r r1 →
      KeepsRegistered id r (UpsertServer r1 id1 handler (ws.map Weight)).1
  | remove (r1 : RoundRobin H) (id1 : String) :
      KeepsRegistered id r r1 → id1 ≠ id → KeepsRegistered id r (RemoveServer r1 id1).1
  | next (r1 : RoundRobin H) (fuel : Nat) (result : Except Failure (server H))
      (r2 : RoundRobin H) :
      KeepsRegistered id r r1 → NextServer fuel r1 = some (result, r2) →
      KeepsRegistered id r r2

/-- A sticky balancer with cookie name `test` over the servers `a;b` and `c` of weight 1,
added by `UpsertServer`: the first identity holds a semicolon. -/
def stickySemicolon : StickyLB Unit :=
  { Balancer := (UpsertServer (UpsertServer New "a;b" () [Weight 1]).1 "c" () [Weight 1]).1,
    cookieName := "test" }

/-- The sticky balancer of `TestSticky` with the empty cookie name. -/
def stickyNoName : StickyLB Unit := { stickyOnes with cookieName := "" }

/-! ## Theorems -/

/-! ### Fuel: more passes never change a result -/

/-- A result the loop reaches within `f` passes is the result it reaches within any larger number of passes. -/
theorem nextServerLoop_mono {H : Type} (g m : Int) :
    ∀ (f f' : Nat) (r : RoundRobin H) (x : Except Failure (server H) × RoundRobin H),
      f ≤ f' → nextServerLoop g m f r = some x → nextServerLoop g m f' r = some x := by
  intro f
  induction f with
  | zero => intro f' r x _ h; simp [nextServerLoop] at h
  | succ f ih =>
    intro f' r x hle h
    obtain ⟨f'', rfl⟩ : ∃ f'', f' = f'' + 1 := ⟨f' - 1, by omega⟩
    simp only [nextServerLoop] at h ⊢
    cases hb : loopBody g m r with
    | returned res r1 => rw [hb] at h; exact h
    | again r1 =>
      rw [hb] at h
      exact ih f'' r1 x (by omega) h

/-- The wrapper `NextServer` returns what `nextServer` returns. -/
theorem NextServer_eq {H : Type} (fuel : Nat) (r : RoundRobin H) :
    NextServer fuel r = nextServer fuel r := by
  unfold NextServer
  cases h : nextServer fuel r with
  | none => rfl
  | some p =>
    obtain ⟨res, r1⟩ := p
    cases res <;> rfl

/-- A result of `NextServer` does not depend on the fuel once the fuel suffices. -/
theorem NextServer_mono {H : Type} (f f' : Nat) (r : RoundRobin H)
    (x : Except Failure (server H) × RoundRobin H) (hle : f ≤ f')
    (h : NextServer f r = some x) : NextServer f' r = some x := by
  rw [NextServer_eq] at h ⊢
  unfold nextServer at h ⊢
  split
  · rename_i h0; rw [if_pos h0] at h; exact h
  · rename_i h0; rw [if_neg h0] at h; exact nextServerLoop_mono _ _ f f' r x hle h

/-- The state after `k` calls does not depend on the fuel once the fuel suffices. -/
theorem afterCalls_mono {H : Type} (f f' : Nat) (hle : f ≤ f') :
    ∀ (k : Nat) (r r' : RoundRobin H), afterCalls f k r = some r' → afterCalls f' k r = some r' := by
  intro k
  induction k with
  | zero => intro r r' h; simpa [afterCalls] using h
  | succ k ih =>
    intro r r' h
    simp only [afterCalls] at h ⊢
    cases hn : NextServer f r with
    | none => rw [hn] at h; simp at h
    | some p =>
      rw [hn] at h
      rw [NextServer_mono f f' r p hle hn]
      exact ih _ _ h

/-- The result of call number `k` does not depend on the fuel once the fuel suffices. -/
theorem nthCall_mono {H : Type} (f f' : Nat) (hle : f ≤ f') (r : RoundRobin H) (k : Nat)
    (x : Except Failure (server H) × RoundRobin H) (h : nthCall f r k = some x) :
    nthCall f' r k = some x := by
  unfold nthCall at h ⊢
  cases ha : afterCalls f k r with
  | none => rw [ha] at h; simp at h
  | some r1 =>
    rw [ha] at h
    rw [afterCalls_mono f f' hle k r r1 ha]
    exact NextServer_mono f f' r1 x hle h

/-- Two runs with different fuel that both complete call number `k` agree on its result. -/
theorem nthCall_fuel_unique {H : Type} (f f' : Nat) (r : RoundRobin H) (k : Nat)
    (x y : Except Failure (server H) × RoundRobin H) (hx : nthCall f r k = some x)
    (hy : nthCall f' r k = some y) : x = y := by
  have h1 := nthCall_mono f (max f f') (le_max_left _ _) r k x hx
  have h2 := nthCall_mono f' (max f f') (le_max_right _ _) r k y hy
  rw [h1] at h2
  exact Option.some.inj h2

/-- The state after `k + 1` calls is the state one more call leaves after the first `k`. -/
theorem afterCalls_succ {H : Type} (fuel : Nat) :
    ∀ (k : Nat) (r : RoundRobin H),
      afterCalls fuel (k + 1) r
        = match afterCalls fuel k r with
          | none => none
          | some r1 =>
            match NextServer fuel r1 with
            | none => none
            | some (_, r2) => some r2 := by
  intro k
  induction k with
  | zero =>
    intro r
    cases h : NextServer fuel r <;> simp [afterCalls, h]
  | succ k ih =>
    intro r
    rw [afterCalls]
    cases h : NextServer fuel r with
    | none => simp [afterCalls, h]
    | some p =>
      simp only []
      rw [ih p.2]
      simp [afterCalls, h]

/-! ### Lookup and options -/

/-- With unique identities the scan of `FindServerByID` stops at the position that holds the identity. -/
theorem findFrom_of_nodup {H : Type} (id : String) :
    ∀ (l : List (server H)) (i0 i : Nat) (s : server H),
      (l.map (fun x => x.id)).Nodup → l[i]? = some s → s.id = id →
      findFrom id l i0 = (some s, ((i0 + i : Nat) : Int)) := by
  intro l
  induction l with
  | nil => intro i0 i s _ h; simp at h
  | cons x rest ih =>
    intro i0 i s hnd hget hid
    cases i with
    | zero =>
      simp at hget
      subst hget
      simp [findFrom, hid]
    | succ i =>
      simp only [List.getElem?_cons_succ] at hget
      simp only [List.map_cons, List.nodup_cons] at hnd
      have hne : x.id ≠ id := by
        intro hx
        apply hnd.1
        rw [hx, ← hid]
        exact List.mem_map.mpr ⟨s, List.getElem?_mem hget, rfl⟩
      simp only [findFrom, if_neg hne]
      rw [ih (i0 + 1) i s hnd.2 hget hid]
      congr 2
      omega

/-- With unique identities `FindServerByID` returns the server registered under the identity, with its position. -/
theorem FindServerByID_of_nodup {H : Type} (r : RoundRobin H) (i : Nat) (s : server H)
    (hnd : (r.servers.map (fun x => x.id)).Nodup) (hget : r.servers[i]? = some s) :
    FindServerByID r s.id = (some s, (i : Int)) := by
  unfold FindServerByID
  have hlen : r.servers.length ≠ 0 := by
    intro h0
    have : r.servers = [] := List.length_eq_zero.mp h0
    rw [this] at hget
    simp at hget
  rw [if_neg hlen, findFrom_of_nodup s.id r.servers 0 i s hnd hget rfl]
  simp

/-- Applying a list of non-negative `Weight` options never fails and leaves the weight of the last option (the old weight for the empty list); identity and handler are untouched. -/
theorem applyOptions_weights {H : Type} :
    ∀ (ws : List Int) (s : server H), (∀ w ∈ ws, 0 ≤ w) →
      applyOptions (ws.map Weight) s
        = ({ id := s.id, server := s.server, weight := ws.getLast?.getD s.weight }, none) := by
  intro ws
  induction ws with
  | nil => intro s _; rfl
  | cons w rest ih =>
    intro s hws
    have hw : ¬ w < 0 := by
      have := hws w (List.mem_cons_self _ _)
      omega
    simp only [List.map_cons, applyOptions, Weight, if_neg hw]
    rw [ih _ (fun v hv => hws v (List.mem_cons_of_mem _ hv))]
    cases rest with
    | nil => rfl
    | cons v rest' =>
      simp [List.getLast?_cons_cons, List.getLast?_eq_getLast _ (List.cons_ne_nil v rest')]

/-! ### The aggregates `maxWeight` and `weightGcd` -/

/-- The scan of `maxWeight` returns an upper bound of its start value and of every weight, and the bound is the start value or one of the weights. -/
theorem foldl_max_spec {H : Type} :
    ∀ (l : List (server H)) (init : Int),
      init ≤ l.foldl (fun max s => if s.weight > max then s.weight else max) init
        ∧ (∀ s ∈ l, s.weight ≤ l.foldl (fun max s => if s.weight > max then s.weight else max) init)
        ∧ (l.foldl (fun max s => if s.weight > max then s.weight else max) init = init
            ∨ ∃ s ∈ l, s.weight = l.foldl (fun max s => if s.weight > max then s.weight else max) init) := by
  intro l
  induction l with
  | nil => intro init; simp
  | cons x rest ih =>
    intro init
    simp only [List.foldl_cons]
    obtain ⟨h1, h2, h3⟩ := ih (if x.weight > init then x.weight else init)
    by_cases hx : x.weight > init
    · simp only [if_pos hx] at h1 h2 h3 ⊢
      refine ⟨by omega, ?_, ?_⟩
      · intro s hs
        rcases List.mem_cons.mp hs with rfl | hs
        · exact h1
        · exact h2 s hs
      · right
        rcases h3 with h3 | ⟨s, hs, h3⟩
        · exact ⟨x, List.mem_cons_self _ _, h3.symm⟩
        · exact ⟨s, List.mem_cons_of_mem _ hs, h3⟩
    · simp only [if_neg hx] at h1 h2 h3 ⊢
      refine ⟨h1, ?_, ?_⟩
      · intro s hs
        rcases List.mem_cons.mp hs with rfl | hs
        · omega
        · exact h2 s hs
      · rcases h3 with h3 | ⟨s, hs, h3⟩
        · exact Or.inl h3
        · exact Or.inr ⟨s, List.mem_cons_of_mem _ hs, h3⟩

/-- Every weight is at most `maxWeight`. -/
theorem maxWeight_ge {H : Type} (r : RoundRobin H) (s : server H) (hs : s ∈ r.servers) :
    s.weight ≤ maxWeight r :=
  (foldl_max_spec r.servers (-1)).2.1 s hs

/-- On a non-empty registry with non-negative weights `maxWeight` is the weight of some server. -/
theorem maxWeight_attained {H : Type} (r : RoundRobin H) (hne : r.servers ≠ [])
    (hnn : ∀ s ∈ r.servers, 0 ≤ s.weight) : ∃ s ∈ r.servers, s.weight = maxWeight r := by
  rcases (foldl_max_spec r.servers (-1)).2.2 with h | h
  · obtain ⟨x, rest, hx⟩ := List.exists_cons_of_ne_nil hne
    have hx' : x ∈ r.servers := by rw [hx]; exact List.mem_cons_self _ _
    have h1 := maxWeight_ge r x hx'
    have h2 : maxWeight r = -1 := h
    have h3 := hnn x hx'
    omega
  · exact h

/-- On a non-empty registry whose weights are all 0, `maxWeight` is 0. -/
theorem maxWeight_eq_zero {H : Type} (r : RoundRobin H) (hne : r.servers ≠ [])
    (hz : ∀ s ∈ r.servers, s.weight = 0) : maxWeight r = 0 := by
  obtain ⟨s, hs, hw⟩ := maxWeight_attained r hne (fun s hs => by rw [hz s hs])
  rw [← hw, hz s hs]

/-- Euclid's loop computes the greatest common divisor of two naturals when the fuel exceeds the second operand. -/
theorem gcdLoop_eq : ∀ (fuel a b : Nat), b < fuel → gcdLoop fuel (a : Int) (b : Int) = (Nat.gcd a b : Int) := by
  intro fuel
  induction fuel with
  | zero => intro a b h; omega
  | succ f ih =>
    intro a b h
    unfold gcdLoop
    by_cases hb : b = 0
    · subst hb; simp
    · have hb' : (b : Int) ≠ 0 := by exact_mod_cast hb
      rw [if_pos hb', ← Int.ofNat_tmod]
      have hlt : a % b < b := Nat.mod_lt _ (Nat.pos_of_ne_zero hb)
      rw [ih b (a % b) (by omega)]
      congr 1
      rw [Nat.gcd_comm a b, Nat.gcd_rec b a, Nat.gcd_comm]

/-- On naturals the function `gcd` is the mathematical gcd. -/
theorem gcd_eq (a b : Nat) : gcd (a : Int) (b : Int) = (Nat.gcd a b : Int) := by
  unfold gcd
  exact gcdLoop_eq _ a b (by simp)

/-- Past the sentinel, the scan of `weightGcd` accumulates the gcd of the weights seen. -/
theorem foldl_gcd_spec {H : Type} :
    ∀ (l : List (server H)) (d : Nat), (∀ s ∈ l, 0 ≤ s.weight) →
      l.foldl (fun divisor s => if divisor = -1 then s.weight else gcd divisor s.weight) (d : Int)
        = (Nat.gcd d (gcdAll (weights l)) : Int) := by
  intro l
  induction l with
  | nil => intro d _; simp [gcdAll, weights]
  | cons x rest ih =>
    intro d hnn
    have hx : 0 ≤ x.weight := hnn x (List.mem_cons_self _ _)
    obtain ⟨w, hw⟩ := Int.eq_ofNat_of_zero_le hx
    have hd : ¬ ((d : Int) = -1) := by omega
    simp only [List.foldl_cons, if_neg hd, hw, gcd_eq]
    rw [ih _ (fun s hs => hnn s (List.mem_cons_of_mem _ hs))]
    simp only [gcdAll, weights, List.map_cons, List.foldr_cons, hw, Int.natAbs_ofNat]
    rw [Nat.gcd_assoc]

/-- On a non-empty registry with non-negative weights `weightGcd` is the gcd of all weights. -/
theorem weightGcd_eq {H : Type} (r : RoundRobin H) (hnn : ∀ s ∈ r.servers, 0 ≤ s.weight)
    (hne : r.servers ≠ []) : weightGcd r = (gcdAll (weights r.servers) : Int) := by
  obtain ⟨x, rest, hx⟩ := List.exists_cons_of_ne_nil hne
  unfold weightGcd
  rw [hx] at hnn ⊢
  have hx0 : 0 ≤ x.weight := hnn x (List.mem_cons_self _ _)
  obtain ⟨w, hw⟩ := Int.eq_ofNat_of_zero_le hx0
  simp only [List.foldl_cons, if_true, hw]
  rw [foldl_gcd_spec rest w (fun s hs => hnn s (List.mem_cons_of_mem _ hs))]
  simp [gcdAll, weights, hw]

/-- The gcd of a list divides each of its members. -/
theorem gcdAll_dvd : ∀ (ws : List Int) (w : Int), w ∈ ws → (gcdAll ws : Int) ∣ w := by
  intro ws
  induction ws with
  | nil => intro w h; simp at h
  | cons x rest ih =>
    intro w hw
    rcases List.mem_cons.mp hw with rfl | hw
    · simp only [gcdAll, List.foldr_cons]
      exact Int.natCast_dvd.mpr (Nat.gcd_dvd_left _ _)
    · have h1 := ih w hw
      have h2 : (gcdAll (x :: rest) : Int) ∣ (gcdAll rest : Int) := by
        simp only [gcdAll, List.foldr_cons]
        exact Int.natCast_dvd_natCast.mpr (Nat.gcd_dvd_right _ _)
      exact dvd_trans h2 h1

/-- The gcd of a list with a non-zero member is positive. -/
theorem gcdAll_pos (ws : List Int) (w : Int) (hw : w ∈ ws) (hpos : w ≠ 0) : 0 < gcdAll ws := by
  rcases Nat.eq_zero_or_pos (gcdAll ws) with h | h
  · have := gcdAll_dvd ws w hw
    rw [h] at this
    simp at this
    exact absurd this hpos
  · exact h

/-! ### Counting selections along the passes of the loop -/

/-- When `p` holds somewhere within the next `f` positions, `nextEmit` is the first such position. -/
theorem nextEmit_spec (p : Nat → Bool) :
    ∀ (f s : Nat), (∃ d, d < f ∧ p (s + d) = true) →
      p (nextEmit p f s) = true ∧ s ≤ nextEmit p f s ∧ nextEmit p f s < s + f
        ∧ ∀ t, s ≤ t → t < nextEmit p f s → p t = false := by
  intro f
  induction f with
  | zero => intro s ⟨d, hd, _⟩; omega
  | succ f ih =>
    intro s ⟨d, hd, hp⟩
    unfold nextEmit
    by_cases hs : p s = true
    · rw [if_pos hs]
      exact ⟨hs, le_refl _, by omega, fun t h1 h2 => by omega⟩
    · rw [if_neg hs]
      have hd0 : d ≠ 0 := by
        intro h0
        subst h0
        exact hs hp
      obtain ⟨h1, h2, h3, h4⟩ := ih (s + 1) ⟨d - 1, by omega, by
        have : s + 1 + (d - 1) = s + d := by omega
        rw [this]; exact hp⟩
      refine ⟨h1, by omega, by omega, ?_⟩
      intro t ht1 ht2
      by_cases hts : t = s
      · subst hts
        simpa using hs
      · exact h4 t (by omega) ht2

/-- The search stops at once where `p` already holds. -/
theorem nextEmit_of_true (p : Nat → Bool) (n s : Nat) (hn : 0 < n) (hp : p s = true) :
    nextEmit p n s = s := by
  obtain ⟨f, rfl⟩ : ∃ f, n = f + 1 := ⟨n - 1, by omega⟩
  simp [nextEmit, hp]

/-- Counting up to `y` or up to `x` is the same when nothing between them satisfies `q`. -/
theorem count_eq_of_none (q : Nat → Prop) [DecidablePred q] (x y : Nat) (hxy : x ≤ y)
    (hnone : ∀ t, x ≤ t → t < y → ¬ q t) : Nat.count q y = Nat.count q x := by
  obtain ⟨c, rfl⟩ : ∃ c, y = x + c := ⟨y - x, by omega⟩
  rw [Nat.count_add]
  have : Nat.count (fun k => q (x + k)) c = 0 := by
    rw [Nat.count_iff_forall_not]
    intro m hm
    exact hnone (x + m) (by omega) (by omega)
  omega

/-- Two positions with the same total count of `p` have the same count of any `q` that implies `p`. -/
theorem count_eq_of_total_eq (p q : Nat → Prop) [DecidablePred p] [DecidablePred q]
    (hqp : ∀ t, q t → p t) (x y : Nat) (h : Nat.count p x = Nat.count p y) :
    Nat.count q x = Nat.count q y := by
  have key : ∀ x y, x ≤ y → Nat.count p x = Nat.count p y → Nat.count q x = Nat.count q y := by
    intro x y hxy h
    symm
    apply count_eq_of_none q x y hxy
    intro t h1 h2 hq
    have h3 : Nat.count p x ≤ Nat.count p t := Nat.count_monotone p h1
    have h4 : Nat.count p t < Nat.count p (t + 1) := Nat.count_lt_count_succ_iff.mpr (hqp t hq)
    have h5 : Nat.count p (t + 1) ≤ Nat.count p y := Nat.count_monotone p h2
    omega
  rcases Nat.le_total x y with hxy | hxy
  · exact key x y hxy h
  · exact (key y x hxy h.symm).symm

/-- A predicate of period `P` is satisfied equally often in every stretch of `P` positions. -/
theorem count_add_period (q : Nat → Prop) [DecidablePred q] (P : Nat)
    (hper : ∀ s, q (s + P) ↔ q s) :
    ∀ N, Nat.count q (N + P) = Nat.count q N + Nat.count q P := by
  intro N
  induction N with
  | zero => simp
  | succ N ih =>
    have : N + 1 + P = (N + P) + 1 := by omega
    rw [this, Nat.count_succ, Nat.count_succ, ih]
    have h := hper N
    by_cases hq : q N
    · rw [if_pos hq, if_pos (h.mpr hq)]; omega
    · rw [if_neg hq, if_neg (fun h' => hq (h.mp h'))]; omega

/-- Call number `k` returns at the first selecting pass at or after its start, fewer than `n` passes later. -/
theorem callStep_spec (p : Nat → Bool) (n : Nat)
    (hwin : ∀ s, ∃ d, d < n ∧ p (s + d) = true) (k : Nat) :
    p (callStep p n k) = true ∧ callStart p n k ≤ callStep p n k
      ∧ callStep p n k < callStart p n k + n
      ∧ ∀ t, callStart p n k ≤ t → t < callStep p n k → p t = false :=
  nextEmit_spec p n (callStart p n k) (hwin _)

/-- When every pass selects, call number `k` returns at pass `k`. -/
theorem callStep_of_all (p : Nat → Bool) (n : Nat) (hn : 0 < n) (hp : ∀ s, p s = true) :
    ∀ k, callStart p n k = k ∧ callStep p n k = k := by
  intro k
  induction k with
  | zero => exact ⟨rfl, nextEmit_of_true p n 0 hn (hp 0)⟩
  | succ k ih =>
    have h1 : callStart p n (k + 1) = k + 1 := by
      show nextEmit p n (callStart p n k) + 1 = k + 1
      rw [ih.1, nextEmit_of_true p n k hn (hp k)]
    refine ⟨h1, ?_⟩
    unfold callStep
    rw [h1, nextEmit_of_true p n (k + 1) hn (hp _)]

/-- One call adds to the count of `q` exactly when the pass at which it returns satisfies `q`. -/
theorem count_callStart_succ (p : Nat → Bool) (n : Nat)
    (hwin : ∀ s, ∃ d, d < n ∧ p (s + d) = true) (q : Nat → Prop) [DecidablePred q] (hqp : ∀ t, q t → p t = true)
    (k : Nat) :
    Nat.count q (callStart p n (k + 1))
      = Nat.count q (callStart p n k) + if q (callStep p n k) then 1 else 0 := by
  obtain ⟨_, h2, _, h4⟩ := callStep_spec p n hwin k
  have h5 : callStart p n (k + 1) = callStep p n k + 1 := rfl
  rw [h5, Nat.count_succ]
  rw [count_eq_of_none q (callStart p n k) (callStep p n k) h2
    (fun t ht1 ht2 hq => by
      have := h4 t ht1 ht2
      rw [hqp t hq] at this
      exact absurd this (by simp))]

/-- Exactly `k` selecting passes precede the start of call number `k`. -/
theorem count_callStart (p : Nat → Bool) (n : Nat)
    (hwin : ∀ s, ∃ d, d < n ∧ p (s + d) = true) (k : Nat) : Nat.count (fun s => p s = true) (callStart p n k) = k := by
  induction k with
  | zero => simp [callStart]
  | succ k ih =>
    rw [count_callStart_succ p n hwin (fun s => p s = true) (fun _ h => h) k, ih,
      if_pos (callStep_spec p n hwin k).1]

/-- The calls `k0 .. k0 + c - 1` whose returning pass satisfies `q` are counted by the passes between the start of call `k0` and the start of call `k0 + c`. -/
theorem count_window (p : Nat → Bool) (n : Nat)
    (hwin : ∀ s, ∃ d, d < n ∧ p (s + d) = true) (q : Nat → Prop) [DecidablePred q] (hqp : ∀ t, q t → p t = true)
    (k0 : Nat) :
    ∀ c, Nat.count q (callStart p n (k0 + c))
      = Nat.count q (callStart p n k0)
        + (List.range' k0 c).countP (fun k => decide (q (callStep p n k))) := by
  intro c
  induction c with
  | zero => simp
  | succ c ih =>
    have h1 : k0 + (c + 1) = (k0 + c) + 1 := by omega
    rw [h1, count_callStart_succ p n hwin q hqp, ih, List.range'_concat, List.countP_append]
    simp only [Nat.mul_one, List.countP_cons, List.countP_nil, decide_eq_true_eq]
    by_cases hq : q (callStep p n (k0 + c))
    · simp [hq]; omega
    · simp [hq]

/-- In a schedule of period `P` with `L` selecting passes per period, every window of `L`
consecutive calls contains as many calls whose returning pass satisfies `q` as one period
contains passes satisfying `q`. -/
theorem window_count (p : Nat → Bool) (n : Nat)
    (hwin : ∀ s, ∃ d, d < n ∧ p (s + d) = true) (q : Nat → Prop) [DecidablePred q] (hqp : ∀ t, q t → p t = true)
    (P : Nat) (hpP : ∀ s, p (s + P) = p s) (hqP : ∀ s, q (s + P) ↔ q s) (k0 : Nat) :
    (List.range' k0 (Nat.count (fun s => p s = true) P)).countP
        (fun k => decide (q (callStep p n k)))
      = Nat.count q P := by
  have h1 := count_window p n hwin q hqp k0 (Nat.count (fun s => p s = true) P)
  have h2 : Nat.count (fun s => p s = true) (callStart p n (k0 + Nat.count (fun s => p s = true) P))
      = Nat.count (fun s => p s = true) (callStart p n k0 + P) := by
    rw [count_callStart p n hwin, count_add_period (fun s => p s = true) P
      (fun s => by simp only [hpP]), count_callStart p n hwin]
  have h3 := count_eq_of_total_eq (fun s => p s = true) q hqp _ _ h2
  rw [count_add_period q P hqP] at h3
  omega

/-- Predicates that agree below `N` have the same count below `N`. -/
theorem count_congr (p q : Nat → Prop) [DecidablePred p] [DecidablePred q] :
    ∀ N, (∀ k, k < N → (p k ↔ q k)) → Nat.count p N = Nat.count q N := by
  intro N
  induction N with
  | zero => intro _; simp
  | succ N ih =>
    intro h
    rw [Nat.count_succ, Nat.count_succ, ih (fun k hk => h k (by omega))]
    by_cases hp : p N
    · rw [if_pos hp, if_pos ((h N (by omega)).mp hp)]
    · rw [if_neg hp, if_neg (fun hq => hp ((h N (by omega)).mpr hq))]

/-- A predicate that holds at most at position `i` is counted once or never. -/
theorem count_single (c : Prop) [Decidable c] (i : Nat) :
    ∀ N, Nat.count (fun k => c ∧ k = i) N = if c ∧ i < N then 1 else 0 := by
  intro N
  induction N with
  | zero => simp
  | succ N ih =>
    rw [Nat.count_succ, ih]
    by_cases hc : c
    · by_cases h1 : i < N
      · have h2 : ¬ (N = i) := by omega
        have h3 : i < N + 1 := by omega
        simp [hc, h1, h2, h3]
      · by_cases h2 : N = i
        · subst h2; simp [hc]
        · have h3 : ¬ (i < N + 1) := by omega
          simp [hc, h1, h2, h3]
    · simp [hc]

/-- Among the first `n * R` passes, those at position `i` are one per round. -/
theorem count_rounds (n : Nat) (hn : 0 < n) (i : Nat) (hi : i < n) (Q : Nat → Prop)
    [DecidablePred Q] :
    ∀ R, Nat.count (fun s => Q (s / n) ∧ s % n = i) (n * R) = Nat.count Q R := by
  intro R
  induction R with
  | zero => simp
  | succ R ih =>
    rw [Nat.mul_succ, Nat.count_add, ih, Nat.count_succ]
    congr 1
    rw [count_congr _ (fun k => Q R ∧ k = i) n]
    · rw [count_single]
      by_cases hq : Q R <;> simp [hq, hi]
    · intro k hk
      have h1 : (n * R + k) / n = R := by
        rw [Nat.mul_add_div hn, Nat.div_eq_of_lt hk]; rfl
      have h2 : (n * R + k) % n = k := by
        rw [Nat.mul_add_mod, Nat.mod_eq_of_lt hk]
      simp only [h1, h2]

/-- The rounds `ρ < R` with `M ≤ a + ρ` are the last `R - (M - a)` ones. -/
theorem count_threshold (M a : Nat) : ∀ R, Nat.count (fun ρ => M ≤ a + ρ) R = R - (M - a) := by
  intro R
  induction R with
  | zero => simp
  | succ R ih =>
    rw [Nat.count_succ, ih]
    by_cases h : M ≤ a + R
    · rw [if_pos h]; omega
    · rw [if_neg h]; omega

/-- The selecting passes repeat with period `n * M`. -/
theorem emitsAt_period (n M : Nat) (a : Nat → Nat) (hn : 0 < n) (s : Nat) :
    emitsAt n M a (s + n * M) = emitsAt n M a s := by
  unfold emitsAt
  have h1 : (s + n * M) % n = s % n := by simp
  have h2 : (s + n * M) / n = s / n + M := by
    rw [Nat.add_mul_div_left _ _ hn]
  rw [h1, h2, Nat.add_mod_right]

/-- Any `n` consecutive passes contain a selecting one: the pass at a server of largest weight. -/
theorem emitsAt_window (n M : Nat) (a : Nat → Nat) (hn : 0 < n)
    (hmax : ∃ i, i < n ∧ a i = M) (s : Nat) : ∃ d, d < n ∧ emitsAt n M a (s + d) = true := by
  obtain ⟨i, hi, hai⟩ := hmax
  have hr : s % n < n := Nat.mod_lt _ hn
  have hs : s = n * (s / n) + s % n := (Nat.div_add_mod s n).symm
  by_cases hle : s % n ≤ i
  · refine ⟨i - s % n, by omega, ?_⟩
    have h1 : s + (i - s % n) = n * (s / n) + i := by omega
    have h2 : (s + (i - s % n)) % n = i := by
      rw [h1, Nat.mul_add_mod, Nat.mod_eq_of_lt hi]
    unfold emitsAt
    rw [h2, hai]
    simp
  · refine ⟨i + n - s % n, by omega, ?_⟩
    have h1 : s + (i + n - s % n) = n * (s / n + 1) + i := by
      rw [Nat.mul_add, Nat.mul_one]; omega
    have h2 : (s + (i + n - s % n)) % n = i := by
      rw [h1, Nat.mul_add_mod, Nat.mod_eq_of_lt hi]
    unfold emitsAt
    rw [h2, hai]
    simp

/-- In one period position `i` is selected `a i` times. -/
theorem count_emits_at_position (n M : Nat) (a : Nat → Nat) (hn : 0 < n) (i : Nat) (hi : i < n)
    (ha : a i ≤ M) :
    Nat.count (fun s => emitsAt n M a s = true ∧ s % n = i) (n * M) = a i := by
  have h1 : Nat.count (fun s => emitsAt n M a s = true ∧ s % n = i) (n * M)
      = Nat.count (fun s => (M ≤ a i + (s / n) % M) ∧ s % n = i) (n * M) := by
    apply count_congr
    intro k _
    unfold emitsAt
    constructor
    · rintro ⟨h, hk⟩
      rw [hk] at h
      exact ⟨by simpa using h, hk⟩
    · rintro ⟨h, hk⟩
      refine ⟨?_, hk⟩
      rw [hk]
      simpa using h
  rw [h1, count_rounds n hn i hi (fun ρ => M ≤ a i + ρ % M) M,
    count_congr _ (fun ρ => M ≤ a i + ρ) M (fun k hk => by rw [Nat.mod_eq_of_lt hk]),
    count_threshold]
  omega

/-- One period contains as many selecting passes as the weights, in units of the step, sum to. -/
theorem count_emits_total (n M : Nat) (a : Nat → Nat) (hn : 0 < n) (ha : ∀ i, i < n → a i ≤ M) :
    Nat.count (fun s => emitsAt n M a s = true) (n * M) = ∑ i ∈ Finset.range n, a i := by
  rw [Nat.count_eq_card_filter_range]
  rw [Finset.card_eq_sum_card_fiberwise (f := fun s => s % n) (t := Finset.range n)
    (fun s _ => Finset.mem_range.mpr (Nat.mod_lt _ hn))]
  apply Finset.sum_congr rfl
  intro i hi
  have hi' := Finset.mem_range.mp hi
  rw [← count_emits_at_position n M a hn i hi' (ha i hi'), Nat.count_eq_card_filter_range,
    Finset.filter_filter]

/-- A sum over the positions of a list is the sum over its members. -/
theorem sum_range_getElem? {H : Type} (F : server H → Nat) :
    ∀ l : List (server H),
      ∑ i ∈ Finset.range l.length, (match l[i]? with | some s => F s | none => 0)
        = (l.map F).sum := by
  intro l
  induction l with
  | nil => simp
  | cons x rest ih =>
    rw [List.length_cons, Finset.sum_range_succ']
    simp only [List.getElem?_cons_succ, List.getElem?_cons_zero, List.map_cons, List.sum_cons]
    rw [ih]
    omega

/-- Dividing each of a list of non-negative multiples of `g` by `g` divides their sum by `g`. -/
theorem sum_units (g : Nat) :
    ∀ ws : List Int, (∀ w ∈ ws, 0 ≤ w ∧ (g : Int) ∣ w) →
      (((ws.map (fun w => w.toNat / g)).sum : Nat) : Int) = ws.sum / (g : Int) := by
  intro ws
  induction ws with
  | nil => intro _; simp
  | cons x rest ih =>
    intro h
    obtain ⟨hx0, hxd⟩ := h x (List.mem_cons_self _ _)
    have ih' := ih (fun w hw => h w (List.mem_cons_of_mem _ hw))
    obtain ⟨w, hw⟩ := Int.eq_ofNat_of_zero_le hx0
    simp only [List.map_cons, List.sum_cons, Nat.cast_add]
    rw [ih', Int.add_ediv_of_dvd_left hxd, hw]
    simp

/-! ### The selection loop follows the schedule -/

/-- The facts about a registry with non-negative weights, one of them positive, that the
analysis of the loop uses: gcd and number of rounds are positive, the maximum is
`rounds * gcd`, every weight is its units times the gcd, at most `rounds` units, and some
weight has exactly `rounds` units. -/
theorem registry_facts {H : Type} (l : List (server H)) (hnn : ∀ s ∈ l, 0 ≤ s.weight)
    (hpos : ∃ s ∈ l, 0 < s.weight) :
    0 < l.length ∧ 0 < gcdAll (weights l) ∧ 0 < rounds l
      ∧ maxWeight (fresh l) = ((rounds l * gcdAll (weights l) : Nat) : Int)
      ∧ (∀ i s, l[i]? = some s → s.weight = ((unitsAt l i * gcdAll (weights l) : Nat) : Int))
      ∧ (∀ i, i < l.length → unitsAt l i ≤ rounds l)
      ∧ (∃ i, i < l.length ∧ unitsAt l i = rounds l) := by
  obtain ⟨s0, hs0, hs0pos⟩ := hpos
  have hne : l ≠ [] := List.ne_nil_of_mem hs0
  have hlen : 0 < l.length := List.length_pos.mpr hne
  have hg : 0 < gcdAll (weights l) :=
    gcdAll_pos (weights l) s0.weight (List.mem_map.mpr ⟨s0, hs0, rfl⟩) (by omega)
  -- every weight is a multiple of the gcd
  have hmul : ∀ s ∈ l, s.weight = ((s.weight.toNat / gcdAll (weights l) * gcdAll (weights l) : Nat) : Int) := by
    intro s hs
    have hd := gcdAll_dvd (weights l) s.weight (List.mem_map.mpr ⟨s, hs, rfl⟩)
    have h0 := hnn s hs
    obtain ⟨w, hw⟩ := Int.eq_ofNat_of_zero_le h0
    rw [hw] at hd ⊢
    have hd' : gcdAll (weights l) ∣ w := Int.natCast_dvd_natCast.mp hd
    simp only [Int.toNat_ofNat]
    rw [Nat.div_mul_cancel hd']
  obtain ⟨sm, hsm, hsmw⟩ := maxWeight_attained (fresh l) hne hnn
  have hmaxge : ∀ s ∈ l, s.weight ≤ maxWeight (fresh l) := fun s hs => maxWeight_ge (fresh l) s hs
  have hmaxeq : maxWeight (fresh l) = ((rounds l * gcdAll (weights l) : Nat) : Int) := by
    unfold rounds
    rw [← hsmw]
    exact hmul sm hsm
  have hunits : ∀ i s, l[i]? = some s → unitsAt l i = s.weight.toNat / gcdAll (weights l) := by
    intro i s h
    unfold unitsAt
    rw [h]
  have hrounds : 0 < rounds l := by
    rcases Nat.eq_zero_or_pos (rounds l) with h | h
    · rw [h] at hmaxeq
      have := hmaxge s0 hs0
      simp at hmaxeq
      omega
    · exact h
  refine ⟨hlen, hg, hrounds, hmaxeq, ?_, ?_, ?_⟩
  · intro i s h
    rw [hunits i s h]
    exact hmul s (List.getElem?_mem h)
  · intro i hi
    have h : l[i]? = some l[i] := List.getElem?_eq_getElem hi
    rw [hunits i _ h]
    unfold rounds
    apply Nat.div_le_div_right
    have := hmaxge l[i] (List.getElem_mem hi)
    have := hnn l[i] (List.getElem_mem hi)
    omega
  · have hsm' : sm ∈ l := hsm
    obtain ⟨i, hi⟩ := List.mem_iff_getElem?.mp hsm'
    have hil : i < l.length := by
      rcases Nat.lt_or_ge i l.length with h | h
      · exact h
      · rw [List.getElem?_eq_none h] at hi; simp at hi
    refine ⟨i, hil, ?_⟩
    rw [hunits i sm hi]
    unfold rounds
    rw [hsmw]

/-- The weight in units of the step is the integer quotient of the weight by the gcd. -/
theorem units_eq {H : Type} (l : List (server H)) (hnn : ∀ s ∈ l, 0 ≤ s.weight) (i : Nat)
    (srv : server H) (hget : l[i]? = some srv) :
    unitsAt l i = (srv.weight / (gcdAll (weights l) : Int)).toNat := by
  unfold unitsAt
  rw [hget]
  obtain ⟨w, hw⟩ := Int.eq_ofNat_of_zero_le (hnn srv (List.getElem?_mem hget))
  simp only [hw, Int.toNat_ofNat]
  rw [← Int.ofNat_ediv, Int.toNat_ofNat]

/-- One period of the schedule contains `cycleLength` selecting passes. -/
theorem count_selects_period {H : Type} (l : List (server H)) (hnn : ∀ s ∈ l, 0 ≤ s.weight)
    (hpos : ∃ s ∈ l, 0 < s.weight) :
    Nat.count (fun s => selects l s = true) (l.length * rounds l) = cycleLength l := by
  obtain ⟨hlen, hg, hM, _, _, hle, _⟩ := registry_facts l hnn hpos
  have h1 := count_emits_total l.length (rounds l) (unitsAt l) hlen hle
  have h2 : ∑ i ∈ Finset.range l.length, unitsAt l i
      = (l.map (fun s => s.weight.toNat / gcdAll (weights l))).sum := by
    rw [← sum_range_getElem? (fun s => s.weight.toNat / gcdAll (weights l)) l]
    rfl
  have h3 := sum_units (gcdAll (weights l)) (weights l) (fun w hw => by
    obtain ⟨s, hs, rfl⟩ := List.mem_map.mp hw
    exact ⟨hnn s hs, gcdAll_dvd (weights l) s.weight hw⟩)
  have h4 : (weights l).map (fun w => w.toNat / gcdAll (weights l))
      = l.map (fun s => s.weight.toNat / gcdAll (weights l)) := by
    simp [weights, List.map_map, Function.comp_def]
  unfold cycleLength
  rw [← h3, Int.toNat_ofNat, h4, ← h2]
  exact h1

/-- Any `n` consecutive passes of the loop contain one that returns. -/
theorem selects_window {H : Type} (l : List (server H)) (hnn : ∀ s ∈ l, 0 ≤ s.weight)
    (hpos : ∃ s ∈ l, 0 < s.weight) (s : Nat) :
    ∃ d, d < l.length ∧ selects l (s + d) = true := by
  obtain ⟨hlen, _, _, _, _, _, hmax⟩ := registry_facts l hnn hpos
  exact emitsAt_window l.length (rounds l) (unitsAt l) hlen hmax s

/-- When all weights are equal and positive every pass returns. -/
theorem selects_of_equal {H : Type} (l : List (server H)) (w : Int) (hw : 0 < w)
    (hall : ∀ s ∈ l, s.weight = w) (hne : l ≠ []) (s : Nat) : selects l s = true := by
  have hnn : ∀ s ∈ l, 0 ≤ s.weight := fun s hs => by rw [hall s hs]; omega
  obtain ⟨x, hx⟩ := List.exists_mem_of_ne_nil l hne
  have hpos : ∃ s ∈ l, 0 < s.weight := ⟨x, hx, by rw [hall x hx]; exact hw⟩
  obtain ⟨hlen, _, _, _, _, _, _⟩ := registry_facts l hnn hpos
  obtain ⟨sm, hsm, hsmw⟩ := maxWeight_attained (fresh l) hne hnn
  have hmax : maxWeight (fresh l) = w := by rw [← hsmw]; exact hall sm hsm
  have hi : s % l.length < l.length := Nat.mod_lt _ hlen
  have hu : unitsAt l (s % l.length) = rounds l := by
    unfold unitsAt rounds
    rw [List.getElem?_eq_getElem hi, hmax]
    simp only
    rw [hall _ (List.getElem_mem hi)]
  simp only [selects, emitsAt, hu, decide_eq_true_eq]
  omega

/-- With the cursor of pass `s`, the end of the loop body returns the server at position `s % n` exactly when the schedule selects pass `s`. -/
theorem loopTail_cursorAfter {H : Type} (l : List (server H)) (hnn : ∀ s ∈ l, 0 ≤ s.weight)
    (hpos : ∃ s ∈ l, 0 < s.weight) (s : Nat) :
    ∃ srv, l[s % l.length]? = some srv
      ∧ loopTail (cursorAfter l s)
          = if selects l s = true then .returned (.ok srv) (cursorAfter l s)
            else .again (cursorAfter l s) := by
  obtain ⟨hlen, hg, hM, _, hw, _, _⟩ := registry_facts l hnn hpos
  have hi : s % l.length < l.length := Nat.mod_lt _ hlen
  have hget : l[s % l.length]? = some l[s % l.length] := List.getElem?_eq_getElem hi
  refine ⟨l[s % l.length], hget, ?_⟩
  have hidx : ¬ ((cursorAfter l s).index < 0) := by
    simp only [cursorAfter]; omega
  have htn : (cursorAfter l s).index.toNat = s % l.length := by
    simp only [cursorAfter, Int.toNat_ofNat]
  have hsrv : (cursorAfter l s).servers = l := rfl
  unfold loopTail
  rw [if_neg hidx, htn, hsrv, hget]
  simp only
  have hweight := hw _ _ hget
  have hρ : (s / l.length) % rounds l < rounds l := Nat.mod_lt _ hM
  have hiff : (l[s % l.length].weight ≥ (cursorAfter l s).currentWeight) ↔ selects l s = true := by
    rw [hweight]
    simp only [cursorAfter, selects, emitsAt, decide_eq_true_eq, ge_iff_le, Int.ofNat_le]
    rw [mul_le_mul_right hg]
    omega
  by_cases hsel : selects l s = true
  · rw [if_pos (hiff.mpr hsel), if_pos hsel]
  · rw [if_neg (fun h => hsel (hiff.mp h)), if_neg hsel]

/-- One pass of the loop body moves the cursor from its value before pass `s` to its value after pass `s`. -/
theorem loopBody_cursorBefore {H : Type} (l : List (server H)) (hnn : ∀ s ∈ l, 0 ≤ s.weight)
    (hpos : ∃ s ∈ l, 0 < s.weight) (s : Nat) :
    loopBody (gcdAll (weights l) : Int) (maxWeight (fresh l)) (cursorBefore l s)
      = loopTail (cursorAfter l s) := by
  obtain ⟨hlen, hg, hM, hmax, _, _, _⟩ := registry_facts l hnn hpos
  cases s with
  | zero =>
    have h0 : cursorAfter l 0 = ⟨0, l, maxWeight (fresh l)⟩ := by
      simp only [cursorAfter, hmax, Nat.zero_mod, Nat.zero_div, Nat.sub_zero]
      rfl
    have hm0 : ¬ (maxWeight (fresh l) = 0) := by
      rw [hmax]
      have : 0 < rounds l * gcdAll (weights l) := Nat.mul_pos hM hg
      omega
    rw [h0]
    generalize maxWeight (fresh l) = m at hm0 ⊢
    have hg' : (0 : Int) - (gcdAll (weights l) : Int) ≤ 0 := by omega
    simp [cursorBefore, fresh, loopBody, hg', hm0]
  | succ s =>
    have hmod : Int.tmod (((s % l.length : Nat) : Int) + 1) (l.length : Int)
        = (((s + 1) % l.length : Nat) : Int) := by
      have : ((s % l.length : Nat) : Int) + 1 = ((s % l.length + 1 : Nat) : Int) := by push_cast; rfl
      rw [this, ← Int.ofNat_tmod, Nat.mod_add_mod]
    have hρ : (s / l.length) % rounds l < rounds l := Nat.mod_lt _ hM
    simp only [cursorBefore, cursorAfter, loopBody, hmod]
    by_cases hwrap : (s + 1) % l.length = 0
    · have hdiv : (s + 1) / l.length = s / l.length + 1 := by
        rw [Nat.succ_div, if_pos (Nat.dvd_of_mod_eq_zero hwrap)]
      rw [hwrap, hdiv]
      simp only [Nat.cast_zero, if_true]
      have hm0 : ¬ (maxWeight (fresh l) = 0) := by
        rw [hmax]
        have : 0 < rounds l * gcdAll (weights l) := Nat.mul_pos hM hg
        omega
      have hstep : (s / l.length + 1) % rounds l = (s / l.length % rounds l + 1) % rounds l :=
        (Nat.mod_add_mod _ _ _).symm
      by_cases hlast : (s / l.length) % rounds l + 1 = rounds l
      · have h1 : rounds l - (s / l.length) % rounds l = 1 := by omega
        have h2 : (s / l.length + 1) % rounds l = 0 := by
          rw [hstep, hlast, Nat.mod_self]
        have h3 : ((1 * gcdAll (weights l) : Nat) : Int) - (gcdAll (weights l) : Int) ≤ 0 := by
          simp
        rw [h1, h2, if_pos h3, if_neg hm0, hmax, Nat.sub_zero]
      · obtain ⟨q, hq⟩ : ∃ q, rounds l - (s / l.length) % rounds l = q + 1 :=
          ⟨rounds l - (s / l.length) % rounds l - 1, by omega⟩
        have hq0 : 0 < q := by omega
        have h2 : (s / l.length + 1) % rounds l = (s / l.length) % rounds l + 1 := by
          rw [hstep, Nat.mod_eq_of_lt (by omega)]
        have h3 : rounds l - ((s / l.length) % rounds l + 1) = q := by omega
        have h4 : (((q + 1) * gcdAll (weights l) : Nat) : Int) - (gcdAll (weights l) : Int)
            = ((q * gcdAll (weights l) : Nat) : Int) := by
          push_cast; ring
        have h5 : ¬ (((q * gcdAll (weights l) : Nat) : Int) ≤ 0) := by
          have : 0 < q * gcdAll (weights l) := Nat.mul_pos hq0 hg
          omega
        rw [hq, h2, h3, h4, if_neg h5]
    · have hne : ¬ ((((s + 1) % l.length : Nat) : Int) = 0) := by
        intro h
        exact hwrap (by exact_mod_cast h)
      have hdiv : (s + 1) / l.length = s / l.length := by
        rw [Nat.succ_div, if_neg (fun hd => hwrap (Nat.mod_eq_zero_of_dvd hd))]
        rfl
      rw [if_neg hne, hdiv]

/-- Started before pass `s`, the loop returns at the first selecting pass `s + d`, given more than `d` passes of fuel. -/
theorem nextServerLoop_schedule {H : Type} (l : List (server H)) (hnn : ∀ s ∈ l, 0 ≤ s.weight)
    (hpos : ∃ s ∈ l, 0 < s.weight) :
    ∀ (d s fuel : Nat), d < fuel → (∀ t, s ≤ t → t < s + d → selects l t = false) →
      selects l (s + d) = true →
      ∃ srv, l[(s + d) % l.length]? = some srv
        ∧ nextServerLoop (gcdAll (weights l) : Int) (maxWeight (fresh l)) fuel (cursorBefore l s)
            = some (.ok srv, cursorAfter l (s + d)) := by
  intro d
  induction d with
  | zero =>
    intro s fuel hf _ hsel
    obtain ⟨f, rfl⟩ : ∃ f, fuel = f + 1 := ⟨fuel - 1, by omega⟩
    obtain ⟨srv, hget, htail⟩ := loopTail_cursorAfter l hnn hpos s
    refine ⟨srv, hget, ?_⟩
    simp only [nextServerLoop, loopBody_cursorBefore l hnn hpos s, htail, Nat.add_zero] at hsel ⊢
    rw [if_pos hsel]
  | succ d ih =>
    intro s fuel hf hnone hsel
    obtain ⟨f, rfl⟩ : ∃ f, fuel = f + 1 := ⟨fuel - 1, by omega⟩
    obtain ⟨srv0, _, htail⟩ := loopTail_cursorAfter l hnn hpos s
    have hs : ¬ (selects l s = true) := by
      rw [hnone s (le_refl _) (by omega)]; simp
    have hadd : s + (d + 1) = (s + 1) + d := by omega
    rw [hadd] at hsel ⊢
    obtain ⟨srv, hget, hloop⟩ := ih (s + 1) f (by omega)
      (fun t h1 h2 => hnone t (by omega) (by omega)) hsel
    refine ⟨srv, hget, ?_⟩
    simp only [nextServerLoop, loopBody_cursorBefore l hnn hpos s, htail, if_neg hs]
    exact hloop

/-- The cursor of a pass carries the registry unchanged. -/
theorem cursorBefore_servers {H : Type} (l : List (server H)) (s : Nat) :
    (cursorBefore l s).servers = l := by
  cases s <;> rfl

/-- Started before pass `s`, `NextServer` returns the server at the position of the next selecting pass, a server of positive weight, and leaves the cursor of that pass; `n` passes of fuel suffice. -/
theorem NextServer_schedule {H : Type} (l : List (server H)) (hnn : ∀ s ∈ l, 0 ≤ s.weight)
    (hpos : ∃ s ∈ l, 0 < s.weight) (s fuel : Nat) (hf : l.length ≤ fuel) :
    ∃ srv, l[nextEmit (selects l) l.length s % l.length]? = some srv
      ∧ 0 < srv.weight
      ∧ NextServer fuel (cursorBefore l s)
          = some (.ok srv, cursorAfter l (nextEmit (selects l) l.length s)) := by
  obtain ⟨hlen, hg, hM, _, hw, _, _⟩ := registry_facts l hnn hpos
  obtain ⟨h1, h2, h3, h4⟩ := nextEmit_spec (selects l) l.length s (selects_window l hnn hpos s)
  obtain ⟨d, hd⟩ : ∃ d, nextEmit (selects l) l.length s = s + d :=
    ⟨nextEmit (selects l) l.length s - s, by omega⟩
  rw [hd] at h1 h3 h4 ⊢
  obtain ⟨srv, hget, hloop⟩ := nextServerLoop_schedule l hnn hpos d s fuel (by omega) h4 h1
  refine ⟨srv, hget, ?_, ?_⟩
  · rw [hw _ _ hget]
    have hρ : ((s + d) / l.length) % rounds l < rounds l := Nat.mod_lt _ hM
    have hu : 0 < unitsAt l ((s + d) % l.length) := by
      simp only [selects, emitsAt, decide_eq_true_eq] at h1
      omega
    have := Nat.mul_pos hu hg
    omega
  · rw [NextServer_eq]
    unfold nextServer
    have hne : ¬ ((cursorBefore l s).servers.length = 0) := by
      rw [cursorBefore_servers]; omega
    have hgcd : weightGcd (cursorBefore l s) = (gcdAll (weights l) : Int) := by
      rw [weightGcd_eq _ (by rw [cursorBefore_servers]; exact hnn)
        (by rw [cursorBefore_servers]; exact List.ne_nil_of_length_pos hlen), cursorBefore_servers]
    have hmaxw : maxWeight (cursorBefore l s) = maxWeight (fresh l) := by
      unfold maxWeight
      rw [cursorBefore_servers]
      rfl
    rw [if_neg hne, hgcd, hmaxw]
    exact hloop

/-- After `k` calls from a reset the cursor is the one before pass `callStart k`. -/
theorem afterCalls_schedule {H : Type} (l : List (server H)) (hnn : ∀ s ∈ l, 0 ≤ s.weight)
    (hpos : ∃ s ∈ l, 0 < s.weight) (fuel : Nat) (hf : l.length ≤ fuel) :
    ∀ k, afterCalls fuel k (fresh l) = some (cursorBefore l (callStart (selects l) l.length k)) := by
  intro k
  induction k with
  | zero => rfl
  | succ k ih =>
    rw [afterCalls_succ, ih]
    obtain ⟨srv, _, _, hcall⟩ :=
      NextServer_schedule l hnn hpos (callStart (selects l) l.length k) fuel hf
    simp only [hcall]
    rfl

/-- Call number `k` after a reset returns the server at position `callStep k % n`, a server
of positive weight, and leaves the cursor of pass `callStep k`. -/
theorem nthCall_schedule {H : Type} (l : List (server H)) (hnn : ∀ s ∈ l, 0 ≤ s.weight)
    (hpos : ∃ s ∈ l, 0 < s.weight) (fuel : Nat) (hf : l.length ≤ fuel) (k : Nat) :
    ∃ srv, l[callStep (selects l) l.length k % l.length]? = some srv
      ∧ 0 < srv.weight
      ∧ nthCall fuel (fresh l) k
          = some (.ok srv, cursorAfter l (callStep (selects l) l.length k)) := by
  obtain ⟨srv, hget, hw, hcall⟩ :=
    NextServer_schedule l hnn hpos (callStart (selects l) l.length k) fuel hf
  refine ⟨srv, hget, hw, ?_⟩
  unfold nthCall
  rw [afterCalls_schedule l hnn hpos fuel hf k]
  exact hcall

/-- On a non-empty registry whose weights are all 0, the first call after a reset fails with the zero-weight error and leaves the cursor at index 0, threshold 0. -/
theorem NextServer_all_zero {H : Type} (l : List (server H)) (hne : l ≠ [])
    (hz : ∀ s ∈ l, s.weight = 0) (fuel : Nat) (hf : l.length ≤ fuel) :
    NextServer fuel (fresh l)
      = some (.error (.error "all servers have 0 weight"), ⟨0, l, 0⟩) := by
  have hlen : 0 < l.length := List.length_pos.mpr hne
  obtain ⟨f, rfl⟩ : ∃ f, fuel = f + 1 := ⟨fuel - 1, by omega⟩
  have hm : maxWeight (fresh l) = 0 := maxWeight_eq_zero (fresh l) hne hz
  have hg : weightGcd (fresh l) = (gcdAll (weights l) : Int) :=
    weightGcd_eq (fresh l) (fun s hs => by rw [hz s hs]) hne
  rw [NextServer_eq]
  unfold nextServer
  rw [if_neg (by simp only [fresh]; omega), hm, hg]
  have hle : (0 : Int) - (gcdAll (weights l) : Int) ≤ 0 := by omega
  simp [nextServerLoop, loopBody, fresh, hle]

/-- The failed upsert has set the weight of `a` to 0 and has left the cursor of the earlier call: index 0, threshold 5. -/
theorem stalePool_eq : stalePool = ⟨0, [⟨"a", (), 0⟩], 5⟩ := by
  with_unfolding_all rfl

/-! ### More on lookup -/

/-- The scan of `FindServerByID` stops at the first position that holds the identity. -/
theorem findFrom_of_first {H : Type} (id : String) :
    ∀ (l : List (server H)) (i0 i : Nat) (s : server H),
      l[i]? = some s → s.id = id →
      (∀ j s', j < i → l[j]? = some s' → s'.id ≠ id) →
      findFrom id l i0 = (some s, ((i0 + i : Nat) : Int)) := by
  intro l
  induction l with
  | nil => intro i0 i s h; simp at h
  | cons x rest ih =>
    intro i0 i s hget hid hfirst
    cases i with
    | zero =>
      simp at hget
      subst hget
      simp [findFrom, hid]
    | succ i =>
      simp only [List.getElem?_cons_succ] at hget
      have hne : x.id ≠ id := hfirst 0 x (by omega) (by simp)
      simp only [findFrom, if_neg hne]
      rw [ih (i0 + 1) i s hget hid (fun j s' hj hs' => hfirst (j + 1) s' (by omega) (by simpa using hs'))]
      congr 2
      omega

/-- When the scan finds a server, it is at the first position that holds the identity. -/
theorem findFrom_some {H : Type} (id : String) :
    ∀ (l : List (server H)) (i0 : Nat) (s : server H) (idx : Int),
      findFrom id l i0 = (some s, idx) →
      ∃ j, idx = ((i0 + j : Nat) : Int) ∧ l[j]? = some s ∧ s.id = id
        ∧ ∀ j' s', j' < j → l[j']? = some s' → s'.id ≠ id := by
  intro l
  induction l with
  | nil => intro i0 s idx h; simp [findFrom] at h
  | cons x rest ih =>
    intro i0 s idx h
    by_cases hx : x.id = id
    · simp only [findFrom, if_pos hx, Prod.mk.injEq, Option.some.injEq] at h
      obtain ⟨h1, h2⟩ := h
      subst h1
      exact ⟨0, by simpa using h2.symm, by simp, hx, fun j' s' hj => by omega⟩
    · simp only [findFrom, if_neg hx] at h
      obtain ⟨j, h1, h2, h3, h4⟩ := ih (i0 + 1) s idx h
      refine ⟨j + 1, ?_, by simpa using h2, h3, ?_⟩
      · rw [h1]; congr 1; omega
      · intro j' s' hj hs'
        cases j' with
        | zero =>
          simp at hs'
          subst hs'
          exact hx
        | succ j' => exact h4 j' s' (by omega) (by simpa using hs')

/-- When the scan finds nothing it reports position -1 and no server holds the identity. -/
theorem findFrom_none {H : Type} (id : String) :
    ∀ (l : List (server H)) (i0 : Nat) (idx : Int),
      findFrom id l i0 = (none, idx) → idx = -1 ∧ ∀ s ∈ l, s.id ≠ id := by
  intro l
  induction l with
  | nil =>
    intro i0 idx h
    simp only [findFrom, Prod.mk.injEq, true_and] at h
    exact ⟨h.symm, fun s hs => by simp at hs⟩
  | cons x rest ih =>
    intro i0 idx h
    by_cases hx : x.id = id
    · simp [findFrom, if_pos hx] at h
    · simp only [findFrom, if_neg hx] at h
      obtain ⟨h1, h2⟩ := ih (i0 + 1) idx h
      refine ⟨h1, ?_⟩
      intro s hs
      rcases List.mem_cons.mp hs with rfl | hs
      · exact hx
      · exact h2 s hs

/-- The length check of `FindServerByID` changes nothing: the scan of the empty list finds
nothing either. -/
theorem FindServerByID_eq_findFrom {H : Type} (r : RoundRobin H) (id : String) :
    FindServerByID r id = findFrom id r.servers 0 := by
  unfold FindServerByID
  split
  · rename_i h
    rw [List.length_eq_zero.mp h]
    rfl
  · rfl

/-- `FindServerByID` returns the first server that holds the identity, with its position. -/
theorem FindServerByID_of_first {H : Type} (r : RoundRobin H) (id : String) (i : Nat)
    (s : server H) (hget : r.servers[i]? = some s) (hid : s.id = id)
    (hfirst : ∀ j s', j < i → r.servers[j]? = some s' → s'.id ≠ id) :
    FindServerByID r id = (some s, (i : Int)) := by
  rw [FindServerByID_eq_findFrom, findFrom_of_first id r.servers 0 i s hget hid hfirst]
  simp

/-- A server returned by `FindServerByID` holds the identity, at the first position that
does. -/
theorem FindServerByID_some {H : Type} (r : RoundRobin H) (id : String) (s : server H)
    (idx : Int) (h : FindServerByID r id = (some s, idx)) :
    ∃ j : Nat, idx = (j : Int) ∧ r.servers[j]? = some s ∧ s.id = id
      ∧ ∀ (j' : Nat) (s' : server H), j' < j → r.servers[j']? = some s' → s'.id ≠ id := by
  rw [FindServerByID_eq_findFrom] at h
  obtain ⟨j, h1, h2, h3, h4⟩ := findFrom_some id r.servers 0 s idx h
  exact ⟨j, by rw [h1]; simp, h2, h3, h4⟩

/-- When `FindServerByID` returns `nil` the position is -1 and no server holds the identity.
-/
theorem FindServerByID_none {H : Type} (r : RoundRobin H) (id : String) (idx : Int)
    (h : FindServerByID r id = (none, idx)) : idx = -1 ∧ ∀ s ∈ r.servers, s.id ≠ id := by
  rw [FindServerByID_eq_findFrom] at h
  exact findFrom_none id r.servers 0 idx h

/-- `FindServerByID` returns `(nil, -1)` for an identity that no server holds. -/
theorem FindServerByID_of_absent {H : Type} (r : RoundRobin H) (id : String)
    (habs : ∀ s ∈ r.servers, s.id ≠ id) : FindServerByID r id = (none, -1) := by
  cases h : FindServerByID r id with
  | mk o idx =>
    cases o with
    | none => rw [(FindServerByID_none r id idx h).1]
    | some s =>
      obtain ⟨j, _, h2, h3, _⟩ := FindServerByID_some r id s idx h
      exact absurd h3 (habs s (List.getElem?_mem h2))

/-! ### Registry mutations -/

/-- `Weight` options, failing or not, leave identity and handler of the server as they were.
-/
theorem applyOptions_weights_id {H : Type} :
    ∀ (ws : List Int) (s : server H),
      (applyOptions (ws.map Weight) s).1.id = s.id
        ∧ (applyOptions (ws.map Weight) s).1.server = s.server := by
  intro ws
  induction ws with
  | nil => intro s; exact ⟨rfl, rfl⟩
  | cons w rest ih =>
    intro s
    by_cases hw : w < 0
    · simp [applyOptions, Weight, hw]
    · simp only [List.map_cons, applyOptions, Weight, if_neg hw]
      exact ih _

/-- For an unregistered identity and non-negative weights, `UpsertServer` appends the new
server with the last weight (0 for no option) and resets the cursor. -/
theorem UpsertServer_absent {H : Type} (r : RoundRobin H) (id : String) (h : H) (ws : List Int)
    (habs : ∀ s ∈ r.servers, s.id ≠ id) (hws : ∀ w ∈ ws, 0 ≤ w) :
    UpsertServer r id h (ws.map Weight)
      = (⟨-1, r.servers ++ [⟨id, h, ws.getLast?.getD 0⟩], 0⟩, none) := by
  unfold UpsertServer
  rw [FindServerByID_of_absent r id habs]
  simp only [applyOptions_weights ws _ hws]
  by_cases h0 : ws.getLast?.getD 0 = 0
  · simp [h0, defaultWeight, resetState, resetIterator]
  · simp [h0, resetState, resetIterator]

/-- For a registered identity and non-negative weights, `UpsertServer` rewrites the weight
at the first position that holds the identity and resets the cursor. -/
theorem UpsertServer_present {H : Type} (r : RoundRobin H) (id : String) (h : H) (ws : List Int)
    (i : Nat) (s : server H) (hget : r.servers[i]? = some s) (hid : s.id = id)
    (hfirst : ∀ (j : Nat) (s' : server H), j < i → r.servers[j]? = some s' → s'.id ≠ id)
    (hws : ∀ w ∈ ws, 0 ≤ w) :
    UpsertServer r id h (ws.map Weight)
      = (⟨-1, r.servers.set i ⟨s.id, s.server, ws.getLast?.getD s.weight⟩, 0⟩, none) := by
  unfold UpsertServer
  rw [FindServerByID_of_first r id i s hget hid hfirst]
  simp only [applyOptions_weights ws s hws, Int.toNat_ofNat]
  rfl

/-- Whatever the weights, `UpsertServer` leaves the sequence of identities as it was or,
when the identity was absent, appends it. -/
theorem UpsertServer_ids {H : Type} (r : RoundRobin H) (id : String) (h : H) (ws : List Int) :
    (UpsertServer r id h (ws.map Weight)).1.servers.map (fun x => x.id)
        = r.servers.map (fun x => x.id)
      ∨ ((∀ s ∈ r.servers, s.id ≠ id)
          ∧ (UpsertServer r id h (ws.map Weight)).1.servers.map (fun x => x.id)
              = r.servers.map (fun x => x.id) ++ [id]) := by
  unfold UpsertServer
  cases hf : FindServerByID r id with
  | mk o idx =>
    cases o with
    | some s =>
      left
      obtain ⟨j, h1, h2, h3, _⟩ := FindServerByID_some r id s idx hf
      have hid := (applyOptions_weights_id ws s).1
      have hj : j < r.servers.length := by
        rcases Nat.lt_or_ge j r.servers.length with h | h
        · exact h
        · rw [List.getElem?_eq_none h] at h2; simp at h2
      have hgj : r.servers[j] = s := by
        rw [List.getElem?_eq_getElem hj] at h2
        exact Option.some.inj h2
      have hset : (r.servers.set idx.toNat (applyOptions (ws.map Weight) s).1).map (fun x => x.id)
          = r.servers.map (fun x => x.id) := by
        rw [h1, Int.toNat_ofNat]
        apply List.ext_getElem?
        intro k
        by_cases hk : k = j
        · subst hk
          simp [List.getElem?_set, hj, hid, hgj]
        · simp [List.getElem?_set, Ne.symm hk]
      cases ha : applyOptions (ws.map Weight) s with
      | mk s1 e =>
        rw [ha] at hset
        cases e with
        | none =>
          simp only [ha, resetState, resetIterator]
          exact hset
        | some err =>
          simp only [ha]
          exact hset
    | none =>
      have habs := (FindServerByID_none r id idx hf).2
      cases ha : applyOptions (ws.map Weight) (⟨id, h, 0⟩ : server H) with
      | mk s1 e =>
        have hid := (applyOptions_weights_id ws (⟨id, h, 0⟩ : server H)).1
        rw [ha] at hid
        cases e with
        | some err =>
          left
          simp only [ha]
        | none =>
          right
          refine ⟨habs, ?_⟩
          simp only at hid
          by_cases h0 : s1.weight = 0 <;> simp [ha, h0, resetState, resetIterator, hid]

/-- `RemoveServer` of an unregistered identity returns the error and the state it was given.
-/
theorem RemoveServer_absent {H : Type} (r : RoundRobin H) (id : String)
    (habs : ∀ s ∈ r.servers, s.id ≠ id) : RemoveServer r id = (r, some "server not found") := by
  unfold RemoveServer
  rw [FindServerByID_of_absent r id habs]

/-- `RemoveServer` of a registered identity deletes the first position that holds it and
resets the cursor. -/
theorem RemoveServer_present {H : Type} (r : RoundRobin H) (id : String) (i : Nat)
    (s : server H) (hget : r.servers[i]? = some s) (hid : s.id = id)
    (hfirst : ∀ (j : Nat) (s' : server H), j < i → r.servers[j]? = some s' → s'.id ≠ id) :
    RemoveServer r id = (⟨-1, r.servers.take i ++ r.servers.drop (i + 1), 0⟩, none) := by
  unfold RemoveServer
  rw [FindServerByID_of_first r id i s hget hid hfirst]
  simp only [Int.toNat_ofNat]
  rfl

/-- The registry after `RemoveServer` is a sublist of the registry before. -/
theorem RemoveServer_sublist {H : Type} (r : RoundRobin H) (id : String) :
    List.Sublist (RemoveServer r id).1.servers r.servers := by
  unfold RemoveServer
  cases hf : FindServerByID r id with
  | mk o idx =>
    cases o with
    | none => exact List.Sublist.refl _
    | some s =>
      show List.Sublist (r.servers.take idx.toNat ++ r.servers.drop (idx.toNat + 1)) r.servers
      have h := List.take_append_drop idx.toNat r.servers
      conv => rhs; rw [← h]
      exact List.Sublist.append (List.Sublist.refl _)
        (by
          have : List.drop (idx.toNat + 1) r.servers = List.drop 1 (List.drop idx.toNat r.servers) := by
            rw [List.drop_drop, Nat.add_comm]
          rw [this]
          exact List.drop_sublist _ _)

/-! ### `NextServer` keeps the registry -/

/-- The end of the loop body leaves the state as it is, and a server it returns is in the
registry. -/
theorem loopTail_servers {H : Type} (r : RoundRobin H) :
    (∀ res r1, loopTail r = .returned res r1 →
        r1 = r ∧ ∀ srv, res = .ok srv → srv ∈ r.servers)
      ∧ (∀ r1, loopTail r = .again r1 → r1 = r) := by
  unfold loopTail
  by_cases hneg : r.index < 0
  · simp [hneg]
  · rw [if_neg hneg]
    cases hg : r.servers[r.index.toNat]? with
    | none => simp
    | some srv =>
      by_cases hw : srv.weight ≥ r.currentWeight
      · simp only [if_pos hw, Iteration.returned.injEq, and_imp, reduceCtorEq, false_implies,
          implies_true, and_true]
        intro res r1 h1 h2
        refine ⟨h2.symm, ?_⟩
        intro srv' h3
        rw [← h1] at h3
        cases h3
        exact List.getElem?_mem hg
      · simp [if_neg hw, eq_comm]

/-- One pass of the loop body leaves the registry as it is, and a server it returns is in
the registry. -/
theorem loopBody_servers {H : Type} (g m : Int) (r : RoundRobin H) :
    (∀ res r1, loopBody g m r = .returned res r1 →
        r1.servers = r.servers ∧ ∀ srv, res = .ok srv → srv ∈ r.servers)
      ∧ (∀ r1, loopBody g m r = .again r1 → r1.servers = r.servers) := by
  have key : ∀ r2 : RoundRobin H, r2.servers = r.servers →
      (∀ res r1, loopTail r2 = .returned res r1 →
          r1.servers = r.servers ∧ ∀ srv, res = .ok srv → srv ∈ r.servers)
        ∧ (∀ r1, loopTail r2 = .again r1 → r1.servers = r.servers) := by
    intro r2 h2
    obtain ⟨h3, h4⟩ := loopTail_servers r2
    constructor
    · intro res r1 h
      obtain ⟨h5, h6⟩ := h3 res r1 h
      rw [h5, h2]
      exact ⟨rfl, fun srv hs => h2 ▸ h6 srv hs⟩
    · intro r1 h
      rw [h4 r1 h, h2]
  unfold loopBody
  simp only
  split
  · split
    · split
      · constructor
        · intro res r1 h
          simp only [Iteration.returned.injEq] at h
          obtain ⟨h1, h2⟩ := h
          subst h1 h2
          exact ⟨rfl, fun srv hs => by cases hs⟩
        · intro r1 h
          cases h
      · exact key _ rfl
    · exact key _ rfl
  · exact key _ rfl

/-- The loop leaves the registry as it is, and a server it returns is in the registry. -/
theorem nextServerLoop_servers {H : Type} (g m : Int) :
    ∀ (fuel : Nat) (r : RoundRobin H) (res : Except Failure (server H)) (r1 : RoundRobin H),
      nextServerLoop g m fuel r = some (res, r1) →
      r1.servers = r.servers ∧ ∀ srv, res = .ok srv → srv ∈ r.servers := by
  intro fuel
  induction fuel with
  | zero => intro r res r1 h; simp [nextServerLoop] at h
  | succ f ih =>
    intro r res r1 h
    simp only [nextServerLoop] at h
    obtain ⟨h1, h2⟩ := loopBody_servers g m r
    cases hb : loopBody g m r with
    | returned res' r' =>
      rw [hb] at h
      simp only [Option.some.injEq, Prod.mk.injEq] at h
      obtain ⟨h3, h4⟩ := h
      subst h3 h4
      exact h1 _ _ hb
    | again r' =>
      rw [hb] at h
      obtain ⟨h3, h4⟩ := ih r' res r1 h
      have h5 := h2 r' hb
      rw [h5] at h3 h4
      exact ⟨h3, h4⟩

/-- `NextServer` leaves the registry as it is, and a server it returns is in the registry.
-/
theorem NextServer_servers {H : Type} (fuel : Nat) (r : RoundRobin H)
    (res : Except Failure (server H)) (r1 : RoundRobin H)
    (h : NextServer fuel r = some (res, r1)) :
    r1.servers = r.servers ∧ ∀ srv, res = .ok srv → srv ∈ r.servers := by
  rw [NextServer_eq] at h
  unfold nextServer at h
  split at h
  · simp only [Option.some.injEq, Prod.mk.injEq] at h
    obtain ⟨h1, h2⟩ := h
    subst h1 h2
    exact ⟨rfl, fun srv hs => by cases hs⟩
  · exact nextServerLoop_servers _ _ fuel r res r1 h

/-! ### The sticky adapter -/

/-- For a registered identity `FindServerByID` returns a server of that identity at a
position of the registry. -/
theorem FindServerByID_of_mem {H : Type} (r : RoundRobin H) (id : String)
    (hmem : ∃ x ∈ r.servers, x.id = id) :
    ∃ (x : server H) (i : Nat), FindServerByID r id = (some x, (i : Int))
      ∧ r.servers[i]? = some x ∧ x.id = id := by
  cases h : FindServerByID r id with
  | mk o idx =>
    cases o with
    | none =>
      obtain ⟨x, hx, hid⟩ := hmem
      exact absurd hid ((FindServerByID_none r id idx h).2 x hx)
    | some s =>
      obtain ⟨j, h1, h2, h3, _⟩ := FindServerByID_some r id s idx h
      exact ⟨s, j, by rw [h1], h2, h3⟩

/-- When the cookie names a server that `FindServerByID` finds, `GetBackend` returns it and
leaves the state unchanged. -/
theorem GetBackend_pinned {H : Type} (s : StickyLB H) (fuel : Nat) (req : Request)
    (v : String) (x : server H) (i : Nat) (hc : req.Cookie s.cookieName = some v)
    (hfind : FindServerByID s.Balancer v = (some x, (i : Int))) :
    StickyLB.GetBackend fuel s req = some (.ok (some x), s) := by
  unfold StickyLB.GetBackend
  rw [hc]
  simp only [hfind]
  have hne : ¬ ((i : Int) = -1) := by omega
  rw [if_neg hne]

/-- Without the cookie, or with one that names no registered server, `GetBackend` is the
fallback block on `NextServer`. -/
theorem GetBackend_fallback {H : Type} (s : StickyLB H) (fuel : Nat) (req : Request)
    (h : req.Cookie s.cookieName = none
      ∨ ∃ v, req.Cookie s.cookieName = some v ∧ ∀ x ∈ s.Balancer.servers, x.id ≠ v) :
    StickyLB.GetBackend fuel s req = StickyLB.nextBackend fuel s := by
  unfold StickyLB.GetBackend
  rcases h with h | ⟨v, hv, habs⟩
  · rw [h]
  · rw [hv]
    simp only [FindServerByID_of_absent s.Balancer v habs, if_true]

/-! ### The selecting passes as a list -/

/-- The selecting passes below `y` are those below `x` when none lies between. -/
theorem filter_range_of_none (p : Nat → Bool) (x y : Nat) (hxy : x ≤ y)
    (hnone : ∀ t, x ≤ t → t < y → p t = false) :
    (List.range y).filter p = (List.range x).filter p := by
  obtain ⟨c, rfl⟩ : ∃ c, y = x + c := ⟨y - x, by omega⟩
  rw [List.range_add, List.filter_append]
  have : ((List.range c).map (x + ·)).filter p = [] := by
    rw [List.filter_eq_nil_iff]
    intro a ha
    obtain ⟨d, hd, rfl⟩ := List.mem_map.mp ha
    rw [List.mem_range] at hd
    simp [hnone (x + d) (by omega) (by omega)]
  rw [this, List.append_nil]

/-- Between two positions with the same count of selecting passes no pass selects. -/
theorem none_between_of_count_eq (p : Nat → Bool) (x y : Nat)
    (h : Nat.count (fun s => p s = true) x = Nat.count (fun s => p s = true) y) :
    ∀ t, x ≤ t → t < y → p t = false := by
  intro t h1 h2
  by_contra hp
  have hp' : p t = true := by simpa using hp
  have h3 : Nat.count (fun s => p s = true) x ≤ Nat.count (fun s => p s = true) t :=
    Nat.count_monotone _ h1
  have h4 : Nat.count (fun s => p s = true) t < Nat.count (fun s => p s = true) (t + 1) :=
    Nat.count_lt_count_succ_iff.mpr hp'
  have h5 : Nat.count (fun s => p s = true) (t + 1) ≤ Nat.count (fun s => p s = true) y :=
    Nat.count_monotone _ h2
  omega

/-- Two positions with the same count of selecting passes have the same list of selecting
passes below them. -/
theorem filter_range_of_count_eq (p : Nat → Bool) (x y : Nat)
    (h : Nat.count (fun s => p s = true) x = Nat.count (fun s => p s = true) y) :
    (List.range x).filter p = (List.range y).filter p := by
  rcases Nat.le_total x y with hxy | hxy
  · exact (filter_range_of_none p x y hxy (none_between_of_count_eq p x y h)).symm
  · exact filter_range_of_none p y x hxy (none_between_of_count_eq p y x h.symm)

/-- The selecting passes before call number `k` begins are the passes at which the calls `0
.. k-1` returned, in order. -/
theorem filter_range_callStart (p : Nat → Bool) (n : Nat)
    (hwin : ∀ s, ∃ d, d < n ∧ p (s + d) = true) :
    ∀ k, (List.range (callStart p n k)).filter p = (List.range k).map (callStep p n) := by
  intro k
  induction k with
  | zero => simp [callStart]
  | succ k ih =>
    obtain ⟨h1, h2, _, h4⟩ := callStep_spec p n hwin k
    have h5 : callStart p n (k + 1) = callStep p n k + 1 := rfl
    rw [h5, List.range_succ, List.filter_append,
      filter_range_of_none p (callStart p n k) (callStep p n k) h2 h4, ih, List.range_succ,
      List.map_append]
    simp [h1]

/-- Exactly `k` selecting passes precede the pass at which call number `k` returns. -/
theorem count_callStep (p : Nat → Bool) (n : Nat)
    (hwin : ∀ s, ∃ d, d < n ∧ p (s + d) = true) (k : Nat) :
    Nat.count (fun s => p s = true) (callStep p n k) = k := by
  obtain ⟨_, h2, _, h4⟩ := callStep_spec p n hwin k
  rw [count_eq_of_none (fun s => p s = true) (callStart p n k) (callStep p n k) h2
    (fun t ht1 ht2 hq => by
      have := h4 t ht1 ht2
      rw [hq] at this
      exact absurd this (by simp)), count_callStart p n hwin]

/-- In a schedule of period `P` with `L` selecting passes per period, call `k + L` returns
`P` passes after call `k`. -/
theorem callStep_add_period (p : Nat → Bool) (n : Nat)
    (hwin : ∀ s, ∃ d, d < n ∧ p (s + d) = true) (P : Nat) (hpP : ∀ s, p (s + P) = p s)
    (k : Nat) :
    callStep p n (k + Nat.count (fun s => p s = true) P) = callStep p n k + P := by
  apply Nat.count_injective (p := fun s => p s = true)
  · exact (callStep_spec p n hwin _).1
  · show p (callStep p n k + P) = true
    rw [hpP]
    exact (callStep_spec p n hwin k).1
  · rw [count_callStep p n hwin, count_add_period (fun s => p s = true) P
      (fun s => by simp only [hpP]), count_callStep p n hwin]

/-- The selecting passes of the first `R` rounds, read as positions, are the positions
that each round selects, round after round. -/
theorem filter_range_rounds (n M : Nat) (a : Nat → Nat) (hn : 0 < n) :
    ∀ R, ((List.range (n * R)).filter (emitsAt n M a)).map (fun s => s % n)
      = (List.range R).flatMap
          (fun ρ => (List.range n).filter (fun i => decide (M ≤ a i + ρ % M))) := by
  intro R
  induction R with
  | zero => simp
  | succ R ih =>
    rw [Nat.mul_succ, List.range_add, List.filter_append, List.map_append, ih, List.range_succ,
      List.flatMap_append, List.flatMap_singleton, List.filter_map, List.map_map]
    congr 1
    have h1 : (List.range n).filter (emitsAt n M a ∘ fun x => n * R + x)
        = (List.range n).filter (fun i => decide (M ≤ a i + R % M)) := by
      apply List.filter_congr
      intro i hi
      rw [List.mem_range] at hi
      have h2 : (n * R + i) / n = R := by
        rw [Nat.mul_add_div hn, Nat.div_eq_of_lt hi]; rfl
      have h3 : (n * R + i) % n = i := by
        rw [Nat.mul_add_mod, Nat.mod_eq_of_lt hi]
      simp only [Function.comp, emitsAt, h2, h3]
    rw [h1]
    have h4 : ∀ i ∈ (List.range n).filter (fun i => decide (M ≤ a i + R % M)),
        ((fun s => s % n) ∘ fun x => n * R + x) i = id i := by
      intro i hi
      have hi' := List.mem_range.mp (List.mem_filter.mp hi).1
      simp only [Function.comp, id]
      rw [Nat.mul_add_mod, Nat.mod_eq_of_lt hi']
    rw [List.map_congr_left h4, List.map_id]

/-! ### The loop refines the naive schedule -/

/-- The value `maxAll` is non-negative, bounds every member, and is 0 or a member. -/
theorem maxAll_spec : ∀ ws : List Int,
    0 ≤ maxAll ws ∧ (∀ w ∈ ws, w ≤ maxAll ws) ∧ (maxAll ws = 0 ∨ maxAll ws ∈ ws) := by
  intro ws
  induction ws with
  | nil => simp [maxAll]
  | cons x rest ih =>
    obtain ⟨h1, h2, h3⟩ := ih
    have hdef : maxAll (x :: rest) = max x (maxAll rest) := rfl
    rw [hdef]
    refine ⟨le_trans h1 (le_max_right _ _), ?_, ?_⟩
    · intro w hw
      rcases List.mem_cons.mp hw with rfl | hw
      · exact le_max_left _ _
      · exact le_trans (h2 w hw) (le_max_right _ _)
    · rcases le_total x (maxAll rest) with hle | hle
      · rw [max_eq_right hle]
        rcases h3 with h3 | h3
        · exact Or.inl h3
        · exact Or.inr (List.mem_cons_of_mem _ h3)
      · rw [max_eq_left hle]
        exact Or.inr (List.mem_cons_self _ _)

/-- On a non-empty registry with non-negative weights `maxWeight` is the maximum of the
weights. -/
theorem maxWeight_eq_maxAll {H : Type} (l : List (server H)) (hne : l ≠ [])
    (hnn : ∀ s ∈ l, 0 ≤ s.weight) : maxWeight (fresh l) = maxAll (weights l) := by
  obtain ⟨h1, h2, h3⟩ := maxAll_spec (weights l)
  obtain ⟨sm, hsm, hsmw⟩ := maxWeight_attained (fresh l) hne hnn
  have hsm' : sm ∈ l := hsm
  apply le_antisymm
  · rw [← hsmw]
    exact h2 _ (List.mem_map.mpr ⟨sm, hsm', rfl⟩)
  · rcases h3 with h3 | h3
    · rw [h3, ← hsmw]
      exact hnn sm hsm'
    · obtain ⟨s, hs, hsw⟩ := List.mem_map.mp h3
      rw [← hsw]
      exact maxWeight_ge (fresh l) s hs

/-- The number of rounds is the quotient of the maximum weight by the gcd. -/
theorem rounds_eq {H : Type} (l : List (server H)) (hnn : ∀ s ∈ l, 0 ≤ s.weight)
    (hpos : ∃ s ∈ l, 0 < s.weight) :
    (maxAll (weights l) / (gcdAll (weights l) : Int)).toNat = rounds l := by
  obtain ⟨hlen, hg, _, hmax, _, _, _⟩ := registry_facts l hnn hpos
  rw [← maxWeight_eq_maxAll l (List.ne_nil_of_length_pos hlen) hnn, hmax]
  push_cast
  rw [Int.mul_ediv_cancel _ (by omega : (gcdAll (weights l) : Int) ≠ 0)]
  simp

/-- The naive schedule is the list of the selecting passes of one period, read as positions.
-/
theorem naiveSchedule_eq {H : Type} (l : List (server H)) (hnn : ∀ s ∈ l, 0 ≤ s.weight)
    (hpos : ∃ s ∈ l, 0 < s.weight) :
    naiveSchedule l
      = ((List.range (l.length * rounds l)).filter (selects l)).map (fun s => s % l.length) := by
  obtain ⟨hlen, hg, hM, hmax, hw, _, _⟩ := registry_facts l hnn hpos
  have hmaxAll : maxAll (weights l) = ((rounds l * gcdAll (weights l) : Nat) : Int) := by
    rw [← maxWeight_eq_maxAll l (List.ne_nil_of_length_pos hlen) hnn, hmax]
  have hsel : selects l = emitsAt l.length (rounds l) (unitsAt l) := by
    funext s; rfl
  rw [hsel, filter_range_rounds l.length (rounds l) (unitsAt l) hlen (rounds l)]
  unfold naiveSchedule
  rw [rounds_eq l hnn hpos, List.flatMap_map]
  simp only [List.flatMap]
  congr 1
  apply List.map_congr_left
  intro ρ hρ
  rw [List.mem_range] at hρ
  apply List.filter_congr
  intro i hi
  rw [List.mem_range] at hi
  rw [List.getElem?_eq_getElem hi]
  simp only
  rw [hw i _ (List.getElem?_eq_getElem hi), hmaxAll, Nat.mod_eq_of_lt hρ]
  have hg' : (0 : Int) < (gcdAll (weights l) : Int) := by omega
  have h1 : (((rounds l * gcdAll (weights l) : Nat) : Int)
        - (ρ : Int) * (gcdAll (weights l) : Int)
        ≤ ((unitsAt l i * gcdAll (weights l) : Nat) : Int))
      ↔ rounds l ≤ unitsAt l i + ρ := by
    push_cast
    constructor
    · intro h
      have h2 : (rounds l : Int) * (gcdAll (weights l) : Int)
          ≤ ((unitsAt l i : Int) + (ρ : Int)) * (gcdAll (weights l) : Int) := by
        rw [add_mul]; linarith
      have h3 := (mul_le_mul_right hg').mp h2
      exact_mod_cast h3
    · intro h
      have h3 : (rounds l : Int) ≤ (unitsAt l i : Int) + (ρ : Int) := by exact_mod_cast h
      have h2 := (mul_le_mul_right hg').mpr h3
      rw [add_mul] at h2
      linarith
  simp only [h1]

/-- The cursor of a pass is the cursor of the pass one period earlier. -/
theorem cursorAfter_add_period {H : Type} (l : List (server H)) (hlen : 0 < l.length)
    (s : Nat) : cursorAfter l (s + l.length * rounds l) = cursorAfter l s := by
  have h1 : (s + l.length * rounds l) % l.length = s % l.length := by simp
  have h2 : (s + l.length * rounds l) / l.length = s / l.length + rounds l := by
    rw [Nat.add_mul_div_left _ _ hlen]
  simp only [cursorAfter, h1, h2, Nat.add_mod_right]

/-- Call `k + cycleLength` returns one period of passes after call `k`. -/
theorem callStep_add_cycle {H : Type} (l : List (server H)) (hnn : ∀ s ∈ l, 0 ≤ s.weight)
    (hpos : ∃ s ∈ l, 0 < s.weight) (k : Nat) :
    callStep (selects l) l.length (k + cycleLength l)
      = callStep (selects l) l.length k + l.length * rounds l := by
  obtain ⟨hlen, _, _, _, _, _, _⟩ := registry_facts l hnn hpos
  rw [← count_selects_period l hnn hpos]
  exact callStep_add_period (selects l) l.length (selects_window l hnn hpos)
    (l.length * rounds l) (fun s => emitsAt_period l.length (rounds l) (unitsAt l) hlen s) k

/-- Call `k + cycleLength` returns what call `k` returns and leaves the same cursor. -/
theorem nthCall_add_cycle {H : Type} (l : List (server H)) (hnn : ∀ s ∈ l, 0 ≤ s.weight)
    (hpos : ∃ s ∈ l, 0 < s.weight) (fuel : Nat) (hf : l.length ≤ fuel) (k : Nat) :
    nthCall fuel (fresh l) (k + cycleLength l) = nthCall fuel (fresh l) k := by
  obtain ⟨hlen, _, _, _, _, _, _⟩ := registry_facts l hnn hpos
  obtain ⟨srv1, hget1, _, hcall1⟩ := nthCall_schedule l hnn hpos fuel hf (k + cycleLength l)
  obtain ⟨srv2, hget2, _, hcall2⟩ := nthCall_schedule l hnn hpos fuel hf k
  rw [callStep_add_cycle l hnn hpos k] at hget1 hcall1
  rw [cursorAfter_add_period l hlen] at hcall1
  rw [Nat.add_mul_mod_self_left, hget2] at hget1
  rw [hcall1, hcall2, Option.some.inj hget1]

/-- Call `k` returns what call `k % cycleLength` returns and leaves the same cursor. -/
theorem nthCall_mod_cycle {H : Type} (l : List (server H)) (hnn : ∀ s ∈ l, 0 ≤ s.weight)
    (hpos : ∃ s ∈ l, 0 < s.weight) (fuel : Nat) (hf : l.length ≤ fuel) (k : Nat) :
    nthCall fuel (fresh l) k = nthCall fuel (fresh l) (k % cycleLength l) := by
  have key : ∀ q j, nthCall fuel (fresh l) (j + q * cycleLength l) = nthCall fuel (fresh l) j := by
    intro q
    induction q with
    | zero => intro j; simp
    | succ q ih =>
      intro j
      have : j + (q + 1) * cycleLength l = (j + q * cycleLength l) + cycleLength l := by
        rw [Nat.succ_mul]; omega
      rw [this, nthCall_add_cycle l hnn hpos fuel hf, ih]
  have h := key (k / cycleLength l) (k % cycleLength l)
  rw [Nat.mod_add_div' k (cycleLength l)] at h
  exact h

/-- One period contains at least one call. -/
theorem cycleLength_pos {H : Type} (l : List (server H)) (hnn : ∀ s ∈ l, 0 ≤ s.weight)
    (hpos : ∃ s ∈ l, 0 < s.weight) : 0 < cycleLength l := by
  obtain ⟨hlen, _, hM, _, _, _, _⟩ := registry_facts l hnn hpos
  obtain ⟨h1, _, h3, _⟩ := callStep_spec (selects l) l.length (selects_window l hnn hpos) 0
  have h4 : callStart (selects l) l.length 0 = 0 := rfl
  rw [h4] at h3
  have h5 : callStep (selects l) l.length 0 + 1 ≤ l.length * rounds l := by
    have : l.length * 1 ≤ l.length * rounds l := Nat.mul_le_mul_left _ hM
    omega
  have h6 := Nat.count_monotone (fun s => selects l s = true) h5
  rw [Nat.count_succ, if_pos h1, count_selects_period l hnn hpos] at h6
  omega

/-- The naive schedule lists, in order, the positions at which the first `cycleLength`
calls return. -/
theorem naiveSchedule_eq_callSteps {H : Type} (l : List (server H))
    (hnn : ∀ s ∈ l, 0 ≤ s.weight) (hpos : ∃ s ∈ l, 0 < s.weight) :
    naiveSchedule l
      = (List.range (cycleLength l)).map (fun k => callStep (selects l) l.length k % l.length) := by
  have hwin := selects_window l hnn hpos
  have h1 := filter_range_callStart (selects l) l.length hwin (cycleLength l)
  have h2 : Nat.count (fun s => selects l s = true) (callStart (selects l) l.length (cycleLength l))
      = Nat.count (fun s => selects l s = true) (l.length * rounds l) := by
    rw [count_callStart (selects l) l.length hwin, count_selects_period l hnn hpos]
  rw [naiveSchedule_eq l hnn hpos, ← filter_range_of_count_eq (selects l) _ _ h2, h1,
    List.map_map]
  rfl

/-! ### The sticky cookie -/

/-- A string whose bytes are all valid is left as it is. -/
theorem sanitizeOrWarn_of_valid (valid : Char → Bool) (v : String)
    (h : ∀ c ∈ v.toList, valid c = true) : sanitizeOrWarn valid v = v := by
  unfold sanitizeOrWarn
  rw [List.filter_eq_self.mpr h]
  rfl

/-- For a valid name and an identity of valid bytes, the line of the sticky cookie is
`stickyLine`. -/
theorem cookieString_of_valid (name id : String) (hname : isCookieNameValid name = true)
    (hid : ∀ c ∈ id.toList, validCookieValueByte c = true) :
    cookieString ⟨name, id, "/"⟩ = stickyLine name id := by
  have hpath : ("/" : String) ≠ "" := by decide
  have hsp : sanitizeCookiePath "/" = "/" := by decide
  have hlit : ("; Path=" ++ "/" : String) = "; Path=/" := by decide
  unfold cookieString stickyLine sanitizeCookieValue
  simp only [hname, if_true, if_pos hpath, hsp, hlit, sanitizeOrWarn_of_valid _ id hid]

/-- The line of a cookie with a valid name is not empty. -/
theorem cookieString_ne_empty (c : Cookie) (hname : isCookieNameValid c.Name = true) :
    cookieString c ≠ "" := by
  unfold cookieString
  rw [if_pos hname]
  have h1 : c.Name ≠ "" := by
    unfold isCookieNameValid at hname
    simp only [Bool.and_eq_true, decide_eq_true_eq] at hname
    exact hname.1
  have h2 : 0 < c.Name.length := by
    rcases Nat.eq_zero_or_pos c.Name.length with h | h
    · exact absurd (String.ext (List.length_eq_zero.mp h)) h1
    · exact h
  intro h
  have h3 := congrArg String.length h
  simp only [String.length_append] at h3
  have h4 : ("" : String).length = 0 := rfl
  omega

/-- For a valid cookie name and an identity of valid bytes, `StickBackend` adds the line
`stickyLine` to the writer. -/
theorem StickBackend_of_valid {H : Type} (s : StickyLB H) (id : String) (w : ResponseWriter)
    (hname : isCookieNameValid s.cookieName = true)
    (hid : ∀ c ∈ id.toList, validCookieValueByte c = true) :
    StickyLB.StickBackend s id w
      = { w with setCookie := w.setCookie ++ [stickyLine s.cookieName id] } := by
  unfold StickyLB.StickBackend SetCookie
  rw [if_pos (cookieString_ne_empty _ hname), cookieString_of_valid _ _ hname hid]

/-- With unique identities, a request that presents the identity of a registered server `X`
whose handler is an `http.Handler` is dispatched to `X` after `StickBackend`, the state
unchanged. -/
theorem ServeHTTP_pinned {H : Type} (isHandler : H → Bool) (fuel : Nat) (s : StickyLB H)
    (hnd : (s.Balancer.servers.map (fun x => x.id)).Nodup) (X : server H)
    (hX : X ∈ s.Balancer.servers) (hcap : isHandler X.server = true) (w : ResponseWriter)
    (req : Request) (hc : req.Cookie s.cookieName = some X.id) :
    StickyLB.ServeHTTP isHandler fuel s w req
      = some (.dispatched (StickyLB.StickBackend s X.id w) X, s) := by
  obtain ⟨i, hi⟩ := List.mem_iff_getElem?.mp hX
  have hfind := FindServerByID_of_nodup s.Balancer i X hnd hi
  unfold StickyLB.ServeHTTP
  rw [GetBackend_pinned s fuel req X.id X i hc hfind]
  simp only [hcap, if_true]

/-- With unique identities, every request of a list of requests that present the identity of
`X` is dispatched to `X`. -/
theorem serveAll_pinned {H : Type} (isHandler : H → Bool) (fuel : Nat) (s : StickyLB H)
    (hnd : (s.Balancer.servers.map (fun x => x.id)).Nodup) (X : server H)
    (hX : X ∈ s.Balancer.servers) (hcap : isHandler X.server = true) :
    ∀ reqs : List (ResponseWriter × Request),
      (∀ q ∈ reqs, q.2.Cookie s.cookieName = some X.id) →
      serveAll isHandler fuel s reqs
        = some (reqs.map (fun q => .dispatched (StickyLB.StickBackend s X.id q.1) X), s) := by
  intro reqs
  induction reqs with
  | nil => intro _; rfl
  | cons q rest ih =>
    intro h
    obtain ⟨w, req⟩ := q
    have h1 := ServeHTTP_pinned isHandler fuel s hnd X hX hcap w req
      (h (w, req) (List.mem_cons_self _ _))
    have h2 := ih (fun q hq => h q (List.mem_cons_of_mem _ hq))
    simp only [serveAll, h1, h2, List.map_cons]

/-- When a request without the cookie is dispatched to `X`, the writer is the one
`StickBackend` leaves, `X` is registered with a handler that is an `http.Handler`, and
registry and cookie name are unchanged. -/
theorem ServeHTTP_first {H : Type} (isHandler : H → Bool) (fuel : Nat) (s : StickyLB H)
    (w0 w1 : ResponseWriter) (req0 : Request) (h0 : req0.Cookie s.cookieName = none)
    (X : server H) (s1 : StickyLB H)
    (hfirst : StickyLB.ServeHTTP isHandler fuel s w0 req0 = some (.dispatched w1 X, s1)) :
    w1 = StickyLB.StickBackend s X.id w0
      ∧ X ∈ s.Balancer.servers ∧ isHandler X.server = true
      ∧ s1.Balancer.servers = s.Balancer.servers ∧ s1.cookieName = s.cookieName := by
  unfold StickyLB.ServeHTTP at hfirst
  rw [GetBackend_fallback s fuel req0 (Or.inl h0)] at hfirst
  unfold StickyLB.nextBackend at hfirst
  cases hn : NextServer fuel s.Balancer with
  | none => rw [hn] at hfirst; simp at hfirst
  | some p =>
    obtain ⟨res, r⟩ := p
    obtain ⟨hsrv, hmem⟩ := NextServer_servers fuel s.Balancer res r hn
    rw [hn] at hfirst
    cases res with
    | error e =>
      cases e <;> simp at hfirst
    | ok srv =>
      simp only at hfirst
      by_cases hcap : isHandler srv.server = true
      · rw [if_pos hcap] at hfirst
        simp only [Option.some.injEq, Prod.mk.injEq, Served.dispatched.injEq] at hfirst
        obtain ⟨⟨h1, h2⟩, h3⟩ := hfirst
        subst h2 h3
        exact ⟨h1.symm, hmem _ rfl, hcap, hsrv, rfl⟩
      · rw [if_neg hcap] at hfirst
        simp at hfirst

/-- Whatever the weights, `UpsertServer` keeps every registered server registered, with its
identity and handler. -/
theorem UpsertServer_entry {H : Type} (r : RoundRobin H) (id : String) (h : H) (ws : List Int)
    (X : server H) (hX : X ∈ r.servers) :
    ∃ X1 ∈ (UpsertServer r id h (ws.map Weight)).1.servers,
      X1.id = X.id ∧ X1.server = X.server := by
  unfold UpsertServer
  cases hf : FindServerByID r id with
  | mk o idx =>
    cases o with
    | some s =>
      obtain ⟨j, h1, h2, _, _⟩ := FindServerByID_some r id s idx hf
      obtain ⟨hid, hsrv⟩ := applyOptions_weights_id ws s
      have hj : j < r.servers.length := by
        rcases Nat.lt_or_ge j r.servers.length with h' | h'
        · exact h'
        · rw [List.getElem?_eq_none h'] at h2; simp at h2
      obtain ⟨p, hp⟩ := List.mem_iff_getElem?.mp hX
      have key : ∃ X1 ∈ r.servers.set idx.toNat (applyOptions (ws.map Weight) s).1,
          X1.id = X.id ∧ X1.server = X.server := by
        rw [h1, Int.toNat_ofNat]
        by_cases hpj : p = j
        · subst hpj
          rw [h2] at hp
          have hsx : s = X := Option.some.inj hp
          refine ⟨(applyOptions (ws.map Weight) s).1, ?_, by rw [hid, hsx], by rw [hsrv, hsx]⟩
          exact List.getElem?_mem (l := r.servers.set p _) (n := p)
            (by simp [List.getElem?_set, hj])
        · refine ⟨X, ?_, rfl, rfl⟩
          exact List.getElem?_mem (l := r.servers.set j _) (n := p)
            (by rw [List.getElem?_set_ne (Ne.symm hpj)]; exact hp)
      cases ha : applyOptions (ws.map Weight) s with
      | mk s1 e =>
        rw [ha] at key
        cases e with
        | none =>
          simp only [ha, resetState, resetIterator]
          exact key
        | some err =>
          simp only [ha]
          exact key
    | none =>
      cases ha : applyOptions (ws.map Weight) (⟨id, h, 0⟩ : server H) with
      | mk s1 e =>
        cases e with
        | some err =>
          simp only [ha]
          exact ⟨X, hX, rfl, rfl⟩
        | none =>
          simp only [ha, resetState, resetIterator]
          exact ⟨X, List.mem_append_left _ hX, rfl, rfl⟩

/-- `RemoveServer` of another identity keeps a registered server registered. -/
theorem RemoveServer_entry {H : Type} (r : RoundRobin H) (id : String) (X : server H)
    (hX : X ∈ r.servers) (hne : id ≠ X.id) : X ∈ (RemoveServer r id).1.servers := by
  unfold RemoveServer
  cases hf : FindServerByID r id with
  | mk o idx =>
    cases o with
    | none => exact hX
    | some s =>
      obtain ⟨j, h1, h2, h3, _⟩ := FindServerByID_some r id s idx hf
      have hj : j < r.servers.length := by
        rcases Nat.lt_or_ge j r.servers.length with h' | h'
        · exact h'
        · rw [List.getElem?_eq_none h'] at h2; simp at h2
      have hgj : r.servers[j] = s := by
        rw [List.getElem?_eq_getElem hj] at h2
        exact Option.some.inj h2
      show X ∈ r.servers.take idx.toNat ++ r.servers.drop (idx.toNat + 1)
      rw [h1, Int.toNat_ofNat]
      have hsplit : r.servers = r.servers.take j ++ s :: r.servers.drop (j + 1) := by
        rw [← hgj, ← List.drop_eq_getElem_cons hj, List.take_append_drop]
      rw [hsplit] at hX
      rcases List.mem_append.mp hX with h4 | h4
      · exact List.mem_append_left _ h4
      · rcases List.mem_cons.mp h4 with h5 | h5
        · rw [h5, h3] at hne
          exact absurd rfl hne
        · exact List.mem_append_right _ h5

/-- Along a run that does not remove the server of identity `X.id`, identities stay
unique and a server with the identity and the handler of `X` stays registered. -/
theorem KeepsRegistered_entry {H : Type} (X : server H) (r r2 : RoundRobin H)
    (hnd : (r.servers.map (fun x => x.id)).Nodup) (hX : X ∈ r.servers)
    (hk : KeepsRegistered X.id r r2) :
    (r2.servers.map (fun x => x.id)).Nodup
      ∧ ∃ X1 ∈ r2.servers, X1.id = X.id ∧ X1.server = X.server := by
  induction hk with
  | start => exact ⟨hnd, X, hX, rfl, rfl⟩
  | upsert r1 id1 h ws _ ih =>
    obtain ⟨hnd1, X1, hX1, hid1, hsrv1⟩ := ih
    constructor
    · rcases UpsertServer_ids r1 id1 h ws with hsame | ⟨habs, happ⟩
      · rw [hsame]; exact hnd1
      · rw [happ]
        apply List.Nodup.append hnd1 (List.nodup_singleton id1)
        intro x hx1 hx2
        obtain ⟨s, hs, hsx⟩ := List.mem_map.mp hx1
        rw [List.mem_singleton] at hx2
        exact habs s hs (hsx.trans hx2)
    · obtain ⟨X2, hX2, hid2, hsrv2⟩ := UpsertServer_entry r1 id1 h ws X1 hX1
      exact ⟨X2, hX2, hid2.trans hid1, hsrv2.trans hsrv1⟩
  | remove r1 id1 _ hne ih =>
    obtain ⟨hnd1, X1, hX1, hid1, hsrv1⟩ := ih
    constructor
    · exact List.Nodup.sublist (List.Sublist.map _ (RemoveServer_sublist r1 id1)) hnd1
    · exact ⟨X1, RemoveServer_entry r1 id1 X1 hX1 (by rw [hid1]; exact hne), hid1, hsrv1⟩
  | next r1 fuel res r3 _ hcall ih =>
    obtain ⟨hnd1, X1, hX1, hid1, hsrv1⟩ := ih
    have hs := (NextServer_servers fuel r1 res r3 hcall).1
    rw [hs]
    exact ⟨hnd1, X1, hX1, hid1, hsrv1⟩

/-! ### The claims -/

/-- C1. For a non-empty registry whose servers all have the same positive weight `w`,
starting from a freshly reset cursor and with at least `n` passes of fuel per call: call
number `k` of `NextServer` succeeds, returns the server at position `k % n` of the
registration order and leaves the index there; so the first `n` calls return the servers
once each in registration order, and the results repeat every `n` calls. -/
theorem C1_equal_weights_cycle {H : Type} (l : List (server H)) (w : Int) (hw : 0 < w)
    (hall : ∀ s ∈ l, s.weight = w) (hne : l ≠ []) (fuel : Nat) (hf : l.length ≤ fuel) :
    (∀ k, ∃ srv r, nthCall fuel (fresh l) k = some (.ok srv, r)
        ∧ l[k % l.length]? = some srv ∧ r.index = ((k % l.length : Nat) : Int))
      ∧ (List.range l.length).map (fun k => (nthCall fuel (fresh l) k).map (fun p => p.1))
          = l.map (fun s => some (.ok s))
      ∧ ∀ k, (nthCall fuel (fresh l) (k + l.length)).map (fun p => p.1)
          = (nthCall fuel (fresh l) k).map (fun p => p.1) := by
  have hnn : ∀ s ∈ l, 0 ≤ s.weight := fun s hs => by rw [hall s hs]; omega
  obtain ⟨x, hx⟩ := List.exists_mem_of_ne_nil l hne
  have hpos : ∃ s ∈ l, 0 < s.weight := ⟨x, hx, by rw [hall x hx]; exact hw⟩
  have hlen : 0 < l.length := List.length_pos.mpr hne
  have hstep : ∀ k, callStep (selects l) l.length k = k := fun k =>
    (callStep_of_all (selects l) l.length hlen (selects_of_equal l w hw hall hne) k).2
  have key : ∀ k, ∃ srv r, nthCall fuel (fresh l) k = some (.ok srv, r)
      ∧ l[k % l.length]? = some srv ∧ r.index = ((k % l.length : Nat) : Int) := by
    intro k
    obtain ⟨srv, hget, _, hcall⟩ := nthCall_schedule l hnn hpos fuel hf k
    rw [hstep k] at hget hcall
    exact ⟨srv, _, hcall, hget, rfl⟩
  refine ⟨key, ?_, ?_⟩
  · apply List.ext_getElem?
    intro k
    by_cases hk : k < l.length
    · obtain ⟨srv, r, hcall, hget, _⟩ := key k
      rw [Nat.mod_eq_of_lt hk] at hget
      simp [List.getElem?_map, List.getElem?_range hk, hcall, hget]
    · have hk' : l.length ≤ k := Nat.le_of_not_lt hk
      simp [List.getElem?_eq_none, hk']
  · intro k
    obtain ⟨srv1, r1, hcall1, hget1, _⟩ := key (k + l.length)
    obtain ⟨srv2, r2, hcall2, hget2, _⟩ := key k
    rw [Nat.add_mod_right] at hget1
    rw [hget1] at hget2
    rw [hcall1, hcall2]
    simp only [Option.map_some', Option.some.injEq] at hget2 ⊢
    rw [hget2]

/-- C1 on the registry of the test "All server with 1 weight": three calls return `test1`,
`test2`, `test3`. -/
theorem C1_equal_weights_cycle_witness :
    (List.range 3).map (fun k => (nthCall 3 (fresh registryOnes) k).map (fun p => p.1))
      = registryOnes.map (fun s => some (.ok s)) :=
  (C1_equal_weights_cycle registryOnes 1 (by decide) (by decide) (by simp [registryOnes]) 3
    (by decide)).2.1

/-- C2, counterexample. On the registry `[A weight 3, B weight 1]` with a freshly reset
cursor, no amount of fuel makes the first four `NextServer` calls return `A, A, B, A`:
the third call returns `A`. -/
theorem C2_not_interleaved :
    ¬ ∃ fuel : Nat,
      (List.range 4).map (nthId fuel (fresh registryAB)) = [some "A", some "A", some "B", some "A"] := by
  rintro ⟨fuel, h⟩
  have h2 : nthId fuel (fresh registryAB) 2 = some "B" := by
    have := congrArg (fun l => l[2]?) h
    simpa using this
  have h3 : nthCall 2 (fresh registryAB) 2 = some (.ok ⟨"A", (), 3⟩, ⟨0, registryAB, 1⟩) := rfl
  unfold nthId at h2
  cases hc : nthCall fuel (fresh registryAB) 2 with
  | none => rw [hc] at h2; simp at h2
  | some p =>
    have := nthCall_fuel_unique _ _ _ _ _ _ hc h3
    subst this
    rw [hc] at h2
    simp at h2

/-- C2, amended. On a registry `[a, b]` with weights 3 and 1 and a freshly reset cursor,
the first four `NextServer` calls return `a, a, a, b`: the three selections of `a` come
first, at thresholds 3, 2 and 1, and `b` is selected last, at threshold 1. -/
theorem C2_three_one_pattern {H : Type} (a b : server H) (ha : a.weight = 3) (hb : b.weight = 1)
    (fuel : Nat) (hfuel : 2 ≤ fuel) :
    nthCall fuel (fresh [a, b]) 0 = some (.ok a, ⟨0, [a, b], 3⟩)
      ∧ nthCall fuel (fresh [a, b]) 1 = some (.ok a, ⟨0, [a, b], 2⟩)
      ∧ nthCall fuel (fresh [a, b]) 2 = some (.ok a, ⟨0, [a, b], 1⟩)
      ∧ nthCall fuel (fresh [a, b]) 3 = some (.ok b, ⟨1, [a, b], 1⟩) := by
  obtain ⟨ida, sa, wa⟩ := a
  obtain ⟨idb, sb, wb⟩ := b
  simp only at ha hb
  subst ha hb
  refine ⟨?_, ?_, ?_, ?_⟩ <;> exact nthCall_mono 2 fuel hfuel _ _ _ (by with_unfolding_all rfl)

/-- C2, amended, on the registry `[A weight 3, B weight 1]` with two passes of fuel. -/
theorem C2_three_one_pattern_witness :
    nthCall 2 (fresh registryAB) 0 = some (.ok ⟨"A", (), 3⟩, ⟨0, registryAB, 3⟩)
      ∧ nthCall 2 (fresh registryAB) 1 = some (.ok ⟨"A", (), 3⟩, ⟨0, registryAB, 2⟩)
      ∧ nthCall 2 (fresh registryAB) 2 = some (.ok ⟨"A", (), 3⟩, ⟨0, registryAB, 1⟩)
      ∧ nthCall 2 (fresh registryAB) 3 = some (.ok ⟨"B", (), 1⟩, ⟨1, registryAB, 1⟩) :=
  C2_three_one_pattern ⟨"A", (), 3⟩ ⟨"B", (), 1⟩ rfl rfl 2 (by decide)

/-- C3. For a registry with non-negative weights of which one is positive, starting from a
freshly reset cursor and with at least `n` passes of fuel per call: every `NextServer`
call succeeds and returns the server at the index it leaves, and in every window of
`cycleLength l = (sum of the weights) / g` consecutive calls, `g` being the gcd of the
weights, position `i` is selected exactly `w_i / g` times. -/
theorem C3_window_frequency {H : Type} (l : List (server H)) (hnn : ∀ s ∈ l, 0 ≤ s.weight)
    (hpos : ∃ s ∈ l, 0 < s.weight) (fuel : Nat) (hf : l.length ≤ fuel) :
    (∀ k, ∃ srv r, nthCall fuel (fresh l) k = some (.ok srv, r)
        ∧ 0 ≤ r.index ∧ l[r.index.toNat]? = some srv)
      ∧ ∀ (k0 i : Nat) (srv : server H), l[i]? = some srv →
          (List.range' k0 (cycleLength l)).countP
              (fun k => decide (nthPos fuel (fresh l) k = some (i : Int)))
            = (srv.weight / (gcdAll (weights l) : Int)).toNat := by
  obtain ⟨hlen, hg, hM, _, _, hle, _⟩ := registry_facts l hnn hpos
  constructor
  · intro k
    obtain ⟨srv, hget, _, hcall⟩ := nthCall_schedule l hnn hpos fuel hf k
    refine ⟨srv, _, hcall, ?_, ?_⟩
    · simp only [cursorAfter]; omega
    · simpa [cursorAfter] using hget
  · intro k0 i srv hget
    have hi : i < l.length := by
      rcases Nat.lt_or_ge i l.length with h | h
      · exact h
      · rw [List.getElem?_eq_none h] at hget; simp at hget
    have hwin := selects_window l hnn hpos
    have hpos_eq : ∀ k, nthPos fuel (fresh l) k
        = some ((callStep (selects l) l.length k % l.length : Nat) : Int) := by
      intro k
      obtain ⟨srv', _, _, hcall⟩ := nthCall_schedule l hnn hpos fuel hf k
      unfold nthPos
      rw [hcall]
      rfl
    have hcongr : (List.range' k0 (cycleLength l)).countP
          (fun k => decide (nthPos fuel (fresh l) k = some (i : Int)))
        = (List.range' k0 (cycleLength l)).countP
          (fun k => decide (selects l (callStep (selects l) l.length k) = true
            ∧ callStep (selects l) l.length k % l.length = i)) := by
      apply List.countP_congr
      intro k _
      have hsel := (callStep_spec (selects l) l.length hwin k).1
      simp only [hpos_eq k, decide_eq_true_eq, Option.some.injEq, Nat.cast_inj, hsel, true_and]
    rw [hcongr, ← count_selects_period l hnn hpos]
    rw [window_count (selects l) l.length hwin
      (fun s => selects l s = true ∧ s % l.length = i) (fun t h => h.1)
      (l.length * rounds l)
      (fun s => emitsAt_period l.length (rounds l) (unitsAt l) hlen s)
      (fun s => by
        have h1 : selects l (s + l.length * rounds l) = selects l s :=
          emitsAt_period l.length (rounds l) (unitsAt l) hlen s
        have h2 : (s + l.length * rounds l) % l.length = s % l.length := by simp
        simp only [h1, h2]) k0]
    rw [← units_eq l hnn i srv hget]
    exact count_emits_at_position l.length (rounds l) (unitsAt l) hlen i hi (hle i hi)

/-- C3 on the registry `[A weight 3, B weight 1]`: the window of 4 calls that starts at
call 2 selects position 0 three times and position 1 once. -/
theorem C3_window_frequency_witness :
    (List.range' 2 4).countP (fun k => decide (nthPos 2 (fresh registryAB) k = some (0 : Int))) = 3
      ∧ (List.range' 2 4).countP
          (fun k => decide (nthPos 2 (fresh registryAB) k = some (1 : Int))) = 1 :=
  ⟨(C3_window_frequency registryAB (by decide) (by decide) 2 (by decide)).2 2 0 ⟨"A", (), 3⟩ rfl,
    (C3_window_frequency registryAB (by decide) (by decide) 2 (by decide)).2 2 1 ⟨"B", (), 1⟩ rfl⟩

/-- C4. For a registry with non-negative weights of which one is positive, starting from
a freshly reset cursor and with at least `n` passes of fuel per call: for every `k`, call
number `k` of `NextServer` succeeds and returns a registered server whose weight is
not 0. -/
theorem C4_zero_weight_never_returned {H : Type} (l : List (server H))
    (hnn : ∀ s ∈ l, 0 ≤ s.weight) (hpos : ∃ s ∈ l, 0 < s.weight) (fuel : Nat)
    (hf : l.length ≤ fuel) (k : Nat) :
    ∃ srv r, nthCall fuel (fresh l) k = some (.ok srv, r) ∧ srv ∈ l ∧ srv.weight ≠ 0 := by
  obtain ⟨srv, hget, hw, hcall⟩ := nthCall_schedule l hnn hpos fuel hf k
  exact ⟨srv, _, hcall, List.getElem?_mem hget, by omega⟩

/-- C4 on the registry of the test "One server with 0 weight": the calls return `test1`,
`test3`, `test1`, `test3`, ... and never `test2`. -/
theorem C4_zero_weight_never_returned_witness :
    (∃ srv r, nthCall 3 (fresh registryOneZero) 5 = some (.ok srv, r)
        ∧ srv ∈ registryOneZero ∧ srv.weight ≠ 0)
      ∧ (List.range 6).map (nthId 3 (fresh registryOneZero))
          = [some "test1", some "test3", some "test1", some "test3", some "test1", some "test3"] :=
  ⟨C4_zero_weight_never_returned registryOneZero (by decide) (by decide) 3 (by decide) 5,
    by decide⟩

/-- C5, the code at the failing input. On the registry `[a, b]` with both weights 0, built
by two `UpsertServer` calls, the first `NextServer` call fails with "all servers have 0
weight" and leaves index 0, threshold 0; the second call then returns `b`, a server of
weight 0, with no error. -/
theorem C5_zero_weight_server_returned :
    zeroPool = ⟨-1, [⟨"a", (), 0⟩, ⟨"b", (), 0⟩], 0⟩
      ∧ nthCall 2 zeroPool 0
          = some (.error (.error "all servers have 0 weight"), ⟨0, [⟨"a", (), 0⟩, ⟨"b", (), 0⟩], 0⟩)
      ∧ nthCall 2 zeroPool 1
          = some (.ok ⟨"b", (), 0⟩, ⟨1, [⟨"a", (), 0⟩, ⟨"b", (), 0⟩], 0⟩) := by
  refine ⟨?_, ?_, ?_⟩ <;> with_unfolding_all rfl

/-- C6. On an empty registry `NextServer` fails with "no servers in the pool" whatever the
cursor is and leaves the state unchanged.  On a non-empty registry with non-negative
weights and a freshly reset cursor, with at least `n` passes of fuel, `NextServer`
returns an error if and only if every weight is 0; the error is then "all servers have
0 weight"; otherwise it returns a server that is a member of the registry. -/
theorem C6_next_server_errors {H : Type} (r : RoundRobin H) (fuel : Nat)
    (hnn : ∀ s ∈ r.servers, 0 ≤ s.weight) (hf : r.servers.length ≤ fuel) :
    (r.servers = [] → NextServer fuel r = some (.error (.error "no servers in the pool"), r))
      ∧ (r.servers ≠ [] → r.index = -1 → r.currentWeight = 0 →
          ((∃ e r1, NextServer fuel r = some (.error e, r1)) ↔ ∀ s ∈ r.servers, s.weight = 0)
            ∧ ((∀ s ∈ r.servers, s.weight = 0) →
                ∃ r1, NextServer fuel r = some (.error (.error "all servers have 0 weight"), r1))
            ∧ ((∃ s ∈ r.servers, s.weight ≠ 0) →
                ∃ srv r1, NextServer fuel r = some (.ok srv, r1) ∧ srv ∈ r.servers)) := by
  constructor
  · intro h0
    rw [NextServer_eq]
    unfold nextServer
    rw [if_pos (by rw [h0]; rfl)]
  · intro hne hidx hcw
    obtain ⟨idx, l, cw⟩ := r
    simp only at hne hidx hcw hnn hf
    subst hidx hcw
    have hfresh : (⟨-1, l, 0⟩ : RoundRobin H) = fresh l := rfl
    rw [hfresh]
    have hzero : (∀ s ∈ l, s.weight = 0) →
        ∃ r1, NextServer fuel (fresh l)
          = some (.error (.error "all servers have 0 weight"), r1) :=
      fun hz => ⟨_, NextServer_all_zero l hne hz fuel hf⟩
    have hsome : (∃ s ∈ l, s.weight ≠ 0) →
        ∃ srv r1, NextServer fuel (fresh l) = some (.ok srv, r1) ∧ srv ∈ l := by
      rintro ⟨s, hs, hsw⟩
      have hpos : ∃ s ∈ l, 0 < s.weight := ⟨s, hs, by have := hnn s hs; omega⟩
      obtain ⟨srv, hget, _, hcall⟩ := NextServer_schedule l hnn hpos 0 fuel hf
      exact ⟨srv, _, hcall, List.getElem?_mem hget⟩
    refine ⟨⟨?_, ?_⟩, hzero, hsome⟩
    · rintro ⟨e, r1, herr⟩
      by_contra hnz
      push_neg at hnz
      obtain ⟨srv, r2, hok, _⟩ := hsome hnz
      rw [hok] at herr
      simp at herr
    · intro hz
      obtain ⟨r1, h⟩ := hzero hz
      exact ⟨_, r1, h⟩

/-- C6 on the registry with weights 1, 0, 1 (a registered server is returned) and on the
empty registry of `New` (the empty-pool error, state unchanged). -/
theorem C6_next_server_errors_witness :
    (∃ srv r1, NextServer 3 (fresh registryOneZero) = some (.ok srv, r1)
        ∧ srv ∈ (fresh registryOneZero).servers)
      ∧ NextServer 0 (New : RoundRobin Unit)
          = some (.error (.error "no servers in the pool"), New) :=
  ⟨(((C6_next_server_errors (fresh registryOneZero) 3 (by decide) (by decide)).2
      (by simp [fresh, registryOneZero]) rfl rfl).2.2) ⟨⟨"test1", (), 1⟩, by simp [fresh, registryOneZero], by decide⟩,
    (C6_next_server_errors (New : RoundRobin Unit) 0 (by simp [New]) (by simp [New])).1 rfl⟩

/-- C7, the code at the failing input. With `a` registered at weight 1, the call
`UpsertServer("a", h, Weight(5), Weight(-1))` returns the error "Weight should be >= 0"
and leaves `a` registered with weight 5: the first option has already written through
the pointer into the registry when the second one fails. -/
theorem C7_failed_upsert_changes_weight :
    (UpsertServer New "a" () [Weight 1]).1 = ⟨-1, [⟨"a", (), 1⟩], 0⟩
      ∧ UpsertServer (⟨-1, [⟨"a", (), 1⟩], 0⟩ : RoundRobin Unit) "a" () [Weight 5, Weight (-1)]
          = (⟨-1, [⟨"a", (), 5⟩], 0⟩, some "Weight should be >= 0") := by
  refine ⟨?_, ?_⟩ <;> with_unfolding_all rfl

/-- C8, the code at the failing input. With `a` registered at weight 1 and the cursor at
index 0, threshold 1 after one `NextServer` call, the call
`UpsertServer("a", h, Weight(5), Weight(-1))` returns an error, changes the weight of
`a` to 5 and leaves the cursor at index 0, threshold 1 instead of resetting it. -/
theorem C8_failed_upsert_keeps_cursor :
    usedPool 1 = ⟨0, [⟨"a", (), 1⟩], 1⟩
      ∧ UpsertServer (usedPool 1) "a" () [Weight 5, Weight (-1)]
          = (⟨0, [⟨"a", (), 5⟩], 1⟩, some "Weight should be >= 0") := by
  refine ⟨?_, ?_⟩ <;> with_unfolding_all rfl

/-- C9, the code at the failing input. After `UpsertServer("a", h, Weight(5))`, one
`NextServer` call and the failed call `UpsertServer("a", h, Weight(0), Weight(-1))`, the
registry holds `a` with weight 0 and the cursor is still index 0, threshold 5; from
this state the loop of `NextServer` never returns: it runs out of fuel for every amount
of fuel. -/
theorem C9_next_server_never_returns :
    stalePool = ⟨0, [⟨"a", (), 0⟩], 5⟩ ∧ ∀ fuel : Nat, NextServer fuel stalePool = none := by
  refine ⟨stalePool_eq, ?_⟩
  intro fuel
  rw [NextServer_eq, stalePool_eq]
  have hg : weightGcd (⟨0, [⟨"a", (), 0⟩], 5⟩ : RoundRobin Unit) = 0 := by with_unfolding_all rfl
  have hm : maxWeight (⟨0, [⟨"a", (), 0⟩], 5⟩ : RoundRobin Unit) = 0 := by with_unfolding_all rfl
  unfold nextServer
  rw [if_neg (by simp), hg, hm]
  induction fuel with
  | zero => rfl
  | succ f ih =>
    have hb : loopBody 0 0 (⟨0, [⟨"a", (), 0⟩], 5⟩ : RoundRobin Unit)
        = .again ⟨0, [⟨"a", (), 0⟩], 5⟩ := by with_unfolding_all rfl
    simp only [nextServerLoop, hb]
    exact ih

/-- C10. For a registry with unique identities that holds server `s` at position `i`, any
handler `h'` and any list of non-negative weights `ws`: `UpsertServer` called with the
identity of `s`, `h'` and the `Weight` options of `ws` returns no error; the sequence
keeps its length and the order of its identities; every other position is unchanged;
position `i` keeps the identity and the original handler of `s` (`h'` is not stored) and
its weight becomes the last weight of `ws`, or stays as it was when `ws` is empty; the
cursor is reset to index -1, threshold 0. -/
theorem C10_upsert_existing {H : Type} (r : RoundRobin H) (i : Nat) (s : server H) (h' : H)
    (ws : List Int) (hnd : (r.servers.map (fun x => x.id)).Nodup)
    (hget : r.servers[i]? = some s) (hws : ∀ w ∈ ws, 0 ≤ w) :
    UpsertServer r s.id h' (ws.map Weight)
        = ({ index := -1, currentWeight := 0,
             servers := r.servers.set i
               { id := s.id, server := s.server, weight := ws.getLast?.getD s.weight } }, none)
      ∧ (UpsertServer r s.id h' (ws.map Weight)).1.servers.length = r.servers.length
      ∧ (UpsertServer r s.id h' (ws.map Weight)).1.servers.map (fun x => x.id)
          = r.servers.map (fun x => x.id)
      ∧ (∀ j, j ≠ i →
          (UpsertServer r s.id h' (ws.map Weight)).1.servers[j]? = r.servers[j]?)
      ∧ (UpsertServer r s.id h' (ws.map Weight)).1.servers[i]?
          = some { id := s.id, server := s.server, weight := ws.getLast?.getD s.weight } := by
  have hi : i < r.servers.length := by
    rcases Nat.lt_or_ge i r.servers.length with h | h
    · exact h
    · rw [List.getElem?_eq_none h] at hget; simp at hget
  have hget' : r.servers[i] = s := by
    rw [List.getElem?_eq_getElem hi] at hget
    exact Option.some.inj hget
  have key : UpsertServer r s.id h' (ws.map Weight)
        = ({ index := -1, currentWeight := 0,
             servers := r.servers.set i
               { id := s.id, server := s.server, weight := ws.getLast?.getD s.weight } }, none) := by
    unfold UpsertServer
    rw [FindServerByID_of_nodup r i s hnd hget]
    simp only [applyOptions_weights ws s hws, Int.toNat_ofNat]
    rfl
  refine ⟨key, ?_, ?_, ?_, ?_⟩
  · rw [key]; simp
  · rw [key]
    apply List.ext_getElem?
    intro j
    by_cases hj : j = i
    · subst hj
      simp [List.getElem?_set, hi, hget']
    · simp [List.getElem?_set, Ne.symm hj]
  · intro j hj
    rw [key]
    simp [List.getElem?_set, Ne.symm hj]
  · rw [key]
    simp [List.getElem?_set, hi]

/-- C10 on the registry `[a, b]` with the cursor at index 1: upserting `b` with weights 4
then 6 keeps handler 8, stores weight 6 and resets the cursor. -/
theorem C10_upsert_existing_witness :
    UpsertServer (⟨1, [⟨"a", 7, 1⟩, ⟨"b", 8, 2⟩], 2⟩ : RoundRobin Nat) "b" 9 [Weight 4, Weight 6]
      = (⟨-1, [⟨"a", 7, 1⟩, ⟨"b", 8, 6⟩], 0⟩, none) :=
  (C10_upsert_existing (⟨1, [⟨"a", 7, 1⟩, ⟨"b", 8, 2⟩], 2⟩ : RoundRobin Nat) 1 ⟨"b", 8, 2⟩ 9
    [4, 6] (by decide) rfl (by decide)).1

/-- C11. For a registry that holds no server with identity `id`, any handler `h` and any
list of non-negative weights `ws`: `UpsertServer` called with `id`, `h` and the `Weight`
options of `ws` returns no error, leaves the existing servers unchanged and in the same
order, appends exactly the server `(id, h, w)` at the end, `w` being the last weight of
`ws` or 0 when `ws` is empty, and resets the cursor to index -1, threshold 0; afterwards
`ServerWeight(id)` returns `(w, true)` and `FindServerByID(id)` returns that server with
the old length as its position. -/
theorem C11_upsert_new {H : Type} (r : RoundRobin H) (id : String) (h : H) (ws : List Int)
    (habs : ∀ s ∈ r.servers, s.id ≠ id) (hws : ∀ w ∈ ws, 0 ≤ w) :
    UpsertServer r id h (ws.map Weight)
        = (⟨-1, r.servers ++ [⟨id, h, ws.getLast?.getD 0⟩], 0⟩, none)
      ∧ ServerWeight (UpsertServer r id h (ws.map Weight)).1 id = (ws.getLast?.getD 0, true)
      ∧ FindServerByID (UpsertServer r id h (ws.map Weight)).1 id
          = (some ⟨id, h, ws.getLast?.getD 0⟩, (r.servers.length : Int)) := by
  have key := UpsertServer_absent r id h ws habs hws
  have hfind : FindServerByID (UpsertServer r id h (ws.map Weight)).1 id
      = (some ⟨id, h, ws.getLast?.getD 0⟩, (r.servers.length : Int)) := by
    rw [key]
    apply FindServerByID_of_first
    · simp
    · rfl
    · intro j s' hj hs'
      simp only at hs'
      rw [List.getElem?_append_left hj] at hs'
      exact habs s' (List.getElem?_mem hs')
  refine ⟨key, ?_, hfind⟩
  unfold ServerWeight
  rw [hfind]

/-- C11 on the registry `[a, b]` with the cursor at index 1 (upserting `c` with weights 4
then 6 appends `c` with weight 6) and on the empty registry with no option (weight 0). -/
theorem C11_upsert_new_witness :
    UpsertServer (⟨1, [⟨"a", 7, 1⟩, ⟨"b", 8, 2⟩], 2⟩ : RoundRobin Nat) "c" 9 [Weight 4, Weight 6]
        = (⟨-1, [⟨"a", 7, 1⟩, ⟨"b", 8, 2⟩, ⟨"c", 9, 6⟩], 0⟩, none)
      ∧ UpsertServer (New : RoundRobin Nat) "a" 7 []
        = (⟨-1, [⟨"a", 7, 0⟩], 0⟩, none) :=
  ⟨(C11_upsert_new (⟨1, [⟨"a", 7, 1⟩, ⟨"b", 8, 2⟩], 2⟩ : RoundRobin Nat) "c" 9 [4, 6]
      (by decide) (by decide)).1,
    (C11_upsert_new (New : RoundRobin Nat) "a" 7 [] (by decide) (by decide)).1⟩

/-- C12. For a registry with unique identities and any identity `id`: if no server has
identity `id`, `RemoveServer` returns the error "server not found" and leaves registry
and cursor unchanged; if position `i` holds identity `id`, `RemoveServer` returns no
error, the new sequence is the old one without position `i` (every other entry
unchanged, in the same relative order: the old sequence filtered on `identity ≠ id`),
the cursor is reset to index -1, threshold 0, and `FindServerByID(id)` on the new state
returns `(nil, -1)`. -/
theorem C12_remove_server {H : Type} (r : RoundRobin H) (id : String)
    (hnd : (r.servers.map (fun x => x.id)).Nodup) :
    ((∀ s ∈ r.servers, s.id ≠ id) → RemoveServer r id = (r, some "server not found"))
      ∧ (∀ (i : Nat) (s : server H), r.servers[i]? = some s → s.id = id →
          RemoveServer r id = (⟨-1, r.servers.take i ++ r.servers.drop (i + 1), 0⟩, none)
            ∧ (RemoveServer r id).1.servers = r.servers.filter (fun x => decide (x.id ≠ id))
            ∧ FindServerByID (RemoveServer r id).1 id = (none, -1)) := by
  refine ⟨RemoveServer_absent r id, ?_⟩
  intro i s hget hid
  have hi : i < r.servers.length := by
    rcases Nat.lt_or_ge i r.servers.length with h | h
    · exact h
    · rw [List.getElem?_eq_none h] at hget; simp at hget
  -- with unique identities, position `i` is the only one that holds `id`
  have honly : ∀ (j : Nat) (s' : server H), r.servers[j]? = some s' → s'.id = id → j = i := by
    intro j s' hj hs'
    have hjl : j < r.servers.length := by
      rcases Nat.lt_or_ge j r.servers.length with h | h
      · exact h
      · rw [List.getElem?_eq_none h] at hj; simp at hj
    have h1 : (r.servers.map (fun x => x.id))[j]? = some id := by
      rw [List.getElem?_map, hj]; simp [hs']
    have h2 : (r.servers.map (fun x => x.id))[i]? = some id := by
      rw [List.getElem?_map, hget]; simp [hid]
    have hjl' : j < (r.servers.map (fun x => x.id)).length := by simpa using hjl
    have hil' : i < (r.servers.map (fun x => x.id)).length := by simpa using hi
    rw [List.getElem?_eq_getElem hjl'] at h1
    rw [List.getElem?_eq_getElem hil'] at h2
    have h3 : (r.servers.map (fun x => x.id))[j] = (r.servers.map (fun x => x.id))[i] := by
      rw [Option.some.inj h1, Option.some.inj h2]
    exact (List.Nodup.getElem_inj_iff hnd).mp h3
  have hfirst : ∀ (j : Nat) (s' : server H), j < i → r.servers[j]? = some s' → s'.id ≠ id := by
    intro j s' hj hs' hid'
    have := honly j s' hs' hid'
    omega
  have key := RemoveServer_present r id i s hget hid hfirst
  have hrest : ∀ x ∈ r.servers.take i ++ r.servers.drop (i + 1), x.id ≠ id := by
    intro x hx hxid
    rcases List.mem_append.mp hx with hx | hx
    · obtain ⟨j, hj⟩ := List.mem_iff_getElem?.mp hx
      have hjl : j < i := by
        rcases Nat.lt_or_ge j i with h | h
        · exact h
        · rw [List.getElem?_take_eq_none h] at hj; simp at hj
      rw [List.getElem?_take_of_lt hjl] at hj
      exact hfirst j x hjl hj hxid
    · obtain ⟨j, hj⟩ := List.mem_iff_getElem?.mp hx
      rw [List.getElem?_drop] at hj
      have := honly _ x hj hxid
      omega
  refine ⟨key, ?_, ?_⟩
  · rw [key]
    simp only
    have hsplit : r.servers = r.servers.take i ++ s :: r.servers.drop (i + 1) := by
      have hgi : r.servers[i] = s := by
        rw [List.getElem?_eq_getElem hi] at hget
        exact Option.some.inj hget
      rw [← hgi, ← List.drop_eq_getElem_cons hi, List.take_append_drop]
    have hf1 : (r.servers.take i).filter (fun x => decide (x.id ≠ id)) = r.servers.take i :=
      List.filter_eq_self.mpr (fun x hx => by
        simpa using hrest x (List.mem_append_left _ hx))
    have hf2 : (r.servers.drop (i + 1)).filter (fun x => decide (x.id ≠ id))
        = r.servers.drop (i + 1) :=
      List.filter_eq_self.mpr (fun x hx => by
        simpa using hrest x (List.mem_append_right _ hx))
    conv => rhs; rw [hsplit]
    rw [List.filter_append, List.filter_cons, hf1, hf2]
    simp [hid]
  · rw [key]
    exact FindServerByID_of_absent _ id hrest

/-- C12 on the registry `[a, b, c]`: removing `b` leaves `[a, c]` with a reset cursor,
removing `d` fails and changes nothing. -/
theorem C12_remove_server_witness :
    RemoveServer (⟨1, [⟨"a", 7, 1⟩, ⟨"b", 8, 2⟩, ⟨"c", 9, 3⟩], 2⟩ : RoundRobin Nat) "b"
        = (⟨-1, [⟨"a", 7, 1⟩, ⟨"c", 9, 3⟩], 0⟩, none)
      ∧ RemoveServer (⟨1, [⟨"a", 7, 1⟩, ⟨"b", 8, 2⟩, ⟨"c", 9, 3⟩], 2⟩ : RoundRobin Nat) "d"
        = (⟨1, [⟨"a", 7, 1⟩, ⟨"b", 8, 2⟩, ⟨"c", 9, 3⟩], 2⟩, some "server not found") :=
  ⟨((C12_remove_server (⟨1, [⟨"a", 7, 1⟩, ⟨"b", 8, 2⟩, ⟨"c", 9, 3⟩], 2⟩ : RoundRobin Nat) "b"
      (by decide)).2 1 ⟨"b", 8, 2⟩ rfl rfl).1,
    (C12_remove_server (⟨1, [⟨"a", 7, 1⟩, ⟨"b", 8, 2⟩, ⟨"c", 9, 3⟩], 2⟩ : RoundRobin Nat) "d"
      (by decide)).1 (by decide)⟩

/-- C13. In every state reachable from `New` by `UpsertServer` calls (with `Weight`
options of any integers, negative ones included), `RemoveServer` calls and `NextServer`
calls, succeeding or failing, no two servers of the registry have the same identity. -/
theorem C13_unique_identities {H : Type} (r : RoundRobin H) (hr : Reachable r) :
    (r.servers.map (fun x => x.id)).Nodup := by
  induction hr with
  | init => simp [New]
  | upsert r id h ws _ ih =>
    rcases UpsertServer_ids r id h ws with hsame | ⟨habs, happ⟩
    · rw [hsame]; exact ih
    · rw [happ]
      apply List.Nodup.append ih (List.nodup_singleton id)
      intro x hx1 hx2
      obtain ⟨s, hs, hsx⟩ := List.mem_map.mp hx1
      rw [List.mem_singleton] at hx2
      exact habs s hs (hsx.trans hx2)
  | remove r id _ ih =>
    exact List.Nodup.sublist (List.Sublist.map _ (RemoveServer_sublist r id)) ih
  | next r fuel res r1 _ hcall ih =>
    rw [(NextServer_servers fuel r res r1 hcall).1]
    exact ih

/-- C13 on the state reached by upserting `a`, upserting `b` and a failed upsert of `a`
with the options `Weight(5), Weight(-1)`. -/
theorem C13_unique_identities_witness :
    ((UpsertServer (UpsertServer (UpsertServer (New : RoundRobin Unit) "a" () [Weight 1]).1
        "b" () [Weight 2]).1 "a" () [Weight 5, Weight (-1)]).1.servers.map
      (fun x => x.id)).Nodup :=
  C13_unique_identities _
    (Reachable.upsert _ "a" () [5, -1]
      (Reachable.upsert _ "b" () [2] (Reachable.upsert _ "a" () [1] Reachable.init)))

/-- C14. For a `StickyLB` over any `RoundRobin` state and a request whose cookie named
`cookieName` has a value `v` that is the identity of a registered server: `GetBackend`
returns, with no error and for any fuel, the server that `FindServerByID(v)` finds, a
registered server of identity `v`, and leaves the state unchanged: index, threshold and
registry are as before, so a following `NextServer` returns what it would have
returned without the request. -/
theorem C14_pinned_request {H : Type} (s : StickyLB H) (fuel : Nat) (req : Request)
    (v : String) (hc : req.Cookie s.cookieName = some v)
    (hreg : ∃ x ∈ s.Balancer.servers, x.id = v) :
    ∃ (x : server H) (i : Nat), FindServerByID s.Balancer v = (some x, (i : Int))
      ∧ x ∈ s.Balancer.servers ∧ x.id = v
      ∧ StickyLB.GetBackend fuel s req = some (.ok (some x), s)
      ∧ ∀ s1 res, StickyLB.GetBackend fuel s req = some (res, s1) →
          s1.Balancer.index = s.Balancer.index
            ∧ s1.Balancer.currentWeight = s.Balancer.currentWeight
            ∧ s1.Balancer.servers = s.Balancer.servers
            ∧ ∀ fuel1, NextServer fuel1 s1.Balancer = NextServer fuel1 s.Balancer := by
  obtain ⟨x, i, hfind, hget, hid⟩ := FindServerByID_of_mem s.Balancer v hreg
  have hback := GetBackend_pinned s fuel req v x i hc hfind
  refine ⟨x, i, hfind, List.getElem?_mem hget, hid, hback, ?_⟩
  intro s1 res h
  rw [hback] at h
  simp only [Option.some.injEq, Prod.mk.injEq] at h
  rw [← h.2]
  exact ⟨rfl, rfl, rfl, fun _ => rfl⟩

/-- C14 on the registry of three servers with the cursor at index 0, threshold 1: a
request with cookie `test=test2` gets `test2` and the state is unchanged. -/
theorem C14_pinned_request_witness :
    StickyLB.GetBackend 0 (⟨⟨0, registryOnes, 1⟩, "test"⟩ : StickyLB Unit)
        (requestWith "test" "test2")
      = some (.ok (some ⟨"test2", (), 1⟩), ⟨⟨0, registryOnes, 1⟩, "test"⟩) := by
  obtain ⟨x, i, h1, _, _, h4, _⟩ :=
    C14_pinned_request (⟨⟨0, registryOnes, 1⟩, "test"⟩ : StickyLB Unit) 0
      (requestWith "test" "test2") "test2" rfl
      ⟨⟨"test2", (), 1⟩, by simp [registryOnes], rfl⟩
  have h5 : FindServerByID (⟨⟨0, registryOnes, 1⟩, "test"⟩ : StickyLB Unit).Balancer "test2"
      = (some ⟨"test2", (), 1⟩, 1) := by with_unfolding_all rfl
  rw [h5] at h1
  simp only [Prod.mk.injEq, Option.some.injEq] at h1
  rw [h4, ← h1.1]

/-- C15. For a `StickyLB` over any `RoundRobin` state and a request that carries no
cookie named `cookieName`, or one whose value is the identity of no registered server:
`GetBackend` returns exactly the result of one `NextServer` call on that state (the same
server, or the same error, or no result when the call does not return) and leaves the
state that call leaves; a stale token produces no error of its own. -/
theorem C15_fallback_request {H : Type} (s : StickyLB H) (fuel : Nat) (req : Request)
    (h : req.Cookie s.cookieName = none
      ∨ ∃ v, req.Cookie s.cookieName = some v ∧ ∀ x ∈ s.Balancer.servers, x.id ≠ v) :
    StickyLB.GetBackend fuel s req
      = (NextServer fuel s.Balancer).map
          (fun p => (p.1.map some, { s with Balancer := p.2 })) := by
  rw [GetBackend_fallback s fuel req h]
  unfold StickyLB.nextBackend
  cases hn : NextServer fuel s.Balancer with
  | none => rfl
  | some p =>
    obtain ⟨res, r⟩ := p
    cases res <;> rfl

/-- C15 on a stale token: after `RemoveServer("test2")` a request with cookie `test=test2`
gets the result of `NextServer`. -/
theorem C15_fallback_request_witness :
    StickyLB.GetBackend 3
        ⟨(RemoveServer (⟨0, registryOnes, 1⟩ : RoundRobin Unit) "test2").1, "test"⟩
        (requestWith "test" "test2")
      = (NextServer 3 (RemoveServer (⟨0, registryOnes, 1⟩ : RoundRobin Unit) "test2").1).map
          (fun p => (p.1.map some,
            { (⟨(RemoveServer (⟨0, registryOnes, 1⟩ : RoundRobin Unit) "test2").1, "test"⟩ :
                StickyLB Unit) with Balancer := p.2 })) :=
  C15_fallback_request
    ⟨(RemoveServer (⟨0, registryOnes, 1⟩ : RoundRobin Unit) "test2").1, "test"⟩ 3
    (requestWith "test" "test2") (Or.inr ⟨"test2", rfl, by decide⟩)

/-- C16, counterexample. With cookie name `test` and the servers `a;b` and `c`, the first
request, without cookie, is dispatched to `a;b` and the response carries the line
`test=ab; Path=/`: `http.SetCookie` has dropped the semicolon, so the value is not the
identity of the server.  The next request presents that cookie, `test=ab`, which names no
server: it falls back to `NextServer` and is dispatched to `c`, not to `a;b`.  With the
empty cookie name the first request of `TestSticky` is dispatched to `test1` and the
response carries no cookie at all. -/
theorem C16_identity_not_carried :
    StickyLB.ServeHTTP (fun _ => true) 2 stickySemicolon emptyWriter requestPlain
        = some (.dispatched ⟨["test=ab; Path=/"], none, ""⟩ ⟨"a;b", (), 1⟩,
            ⟨⟨0, [⟨"a;b", (), 1⟩, ⟨"c", (), 1⟩], 1⟩, "test"⟩)
      ∧ ¬ ("test=a;b; Path=/" ∈ ["test=ab; Path=/"])
      ∧ StickyLB.ServeHTTP (fun _ => true) 2
          ⟨⟨0, [⟨"a;b", (), 1⟩, ⟨"c", (), 1⟩], 1⟩, "test"⟩ emptyWriter (requestWith "test" "ab")
        = some (.dispatched ⟨["test=c; Path=/"], none, ""⟩ ⟨"c", (), 1⟩,
            ⟨⟨1, [⟨"a;b", (), 1⟩, ⟨"c", (), 1⟩], 1⟩, "test"⟩)
      ∧ StickyLB.ServeHTTP (fun _ => true) 3 stickyNoName emptyWriter requestPlain
        = some (.dispatched ⟨[], none, ""⟩ ⟨"test1", (), 1⟩,
            ⟨⟨0, [⟨"test1", (), 1⟩, ⟨"test2", (), 1⟩, ⟨"test3", (), 1⟩], 1⟩, ""⟩) := by
  refine ⟨?_, by decide, ?_, ?_⟩ <;> with_unfolding_all rfl

/-- C16, amended. For a `StickyLB` over a registry with unique identities, whose cookie
name is a valid cookie name (a non-empty HTTP token): if `ServeHTTP` dispatches a first
request without the cookie to a server `X` whose identity holds only bytes that are valid
in a cookie value (printable ASCII other than double quote, semicolon and backslash),
then the writer handed to the handler of `X` carries the added line
`cookieName=identity; Path=/`, the identity as it stands (in double quotes when it
contains a space or a comma); every request of any list of subsequent requests that
present that cookie is dispatched to `X` again, with the same line added to its writer,
the state staying as the first request left it; and after any run of `UpsertServer`,
`NextServer` and `RemoveServer` calls that does not remove the identity of `X`, a request
that presents the cookie is dispatched to the server registered under that identity,
which has the handler of `X` (its weight may have changed), with the same line added.
Only the handler of `X` has to satisfy the dispatch capability, which the first dispatch
shows. -/
theorem C16_sticky_session {H : Type} (isHandler : H → Bool) (fuel : Nat) (s : StickyLB H)
    (hnd : (s.Balancer.servers.map (fun x => x.id)).Nodup)
    (w0 w1 : ResponseWriter) (req0 : Request) (h0 : req0.Cookie s.cookieName = none)
    (X : server H) (s1 : StickyLB H)
    (hfirst : StickyLB.ServeHTTP isHandler fuel s w0 req0 = some (.dispatched w1 X, s1))
    (hname : isCookieNameValid s.cookieName = true)
    (hid : ∀ c ∈ X.id.toList, validCookieValueByte c = true) :
    w1 = { w0 with setCookie := w0.setCookie ++ [stickyLine s.cookieName X.id] }
      ∧ (∀ reqs : List (ResponseWriter × Request),
          (∀ q ∈ reqs, q.2.Cookie s.cookieName = some X.id) →
          serveAll isHandler fuel s1 reqs
            = some (reqs.map (fun q => .dispatched
                { q.1 with setCookie := q.1.setCookie ++ [stickyLine s.cookieName X.id] } X),
              s1))
      ∧ ∀ (r2 : RoundRobin H) (w : ResponseWriter) (req : Request),
          KeepsRegistered X.id s1.Balancer r2 →
          req.Cookie s.cookieName = some X.id →
          ∃ X1, X1 ∈ r2.servers ∧ X1.id = X.id ∧ X1.server = X.server
            ∧ StickyLB.ServeHTTP isHandler fuel ⟨r2, s.cookieName⟩ w req
                = some (.dispatched
                    { w with setCookie := w.setCookie ++ [stickyLine s.cookieName X.id] } X1,
                  ⟨r2, s.cookieName⟩) := by
  obtain ⟨h1, h2, h3, h4, h5⟩ := ServeHTTP_first isHandler fuel s w0 w1 req0 h0 X s1 hfirst
  have hname1 : isCookieNameValid s1.cookieName = true := by rw [h5]; exact hname
  have hnd1 : (s1.Balancer.servers.map (fun x => x.id)).Nodup := by rw [h4]; exact hnd
  have hX1 : X ∈ s1.Balancer.servers := by rw [h4]; exact h2
  refine ⟨?_, ?_, ?_⟩
  · rw [h1, StickBackend_of_valid s X.id w0 hname hid]
  · intro reqs hreqs
    have := serveAll_pinned isHandler fuel s1 hnd1 X hX1 h3 reqs (by rw [h5]; exact hreqs)
    rw [this]
    congr 2
    apply List.map_congr_left
    intro q _
    rw [StickBackend_of_valid s1 X.id q.1 hname1 hid, h5]
  · intro r2 w req hk hc
    obtain ⟨hnd2, X1, hX2, hid2, hsrv2⟩ := KeepsRegistered_entry X s1.Balancer r2 hnd1 hX1 hk
    refine ⟨X1, hX2, hid2, hsrv2, ?_⟩
    have hp := ServeHTTP_pinned isHandler fuel ⟨r2, s.cookieName⟩ hnd2 X1 hX2
      (by rw [hsrv2]; exact h3) w req (by rw [hid2]; exact hc)
    rw [hp, StickBackend_of_valid ⟨r2, s.cookieName⟩ X1.id w hname (by rw [hid2]; exact hid),
      hid2]

/-- C16, amended, on the registry of `TestSticky`: the first request, without cookie, is
served by `test1` and sets `test=test1; Path=/`; the two following requests present the
cookie and are served by `test1` again; and after `test1` is re-weighted to 5 a request
that presents the cookie is still served by the server registered as `test1`. -/
theorem C16_sticky_session_witness :
    StickyLB.ServeHTTP (fun _ => true) 3 stickyOnes emptyWriter requestPlain
        = some (.dispatched ⟨["test=test1; Path=/"], none, ""⟩ ⟨"test1", (), 1⟩,
            ⟨⟨0, [⟨"test1", (), 1⟩, ⟨"test2", (), 1⟩, ⟨"test3", (), 1⟩], 1⟩, "test"⟩)
      ∧ serveAll (fun _ => true) 3
          ⟨⟨0, [⟨"test1", (), 1⟩, ⟨"test2", (), 1⟩, ⟨"test3", (), 1⟩], 1⟩, "test"⟩
          [(emptyWriter, requestWith "test" "test1"), (emptyWriter, requestWith "test" "test1")]
        = some ([.dispatched ⟨["test=test1; Path=/"], none, ""⟩ ⟨"test1", (), 1⟩,
                 .dispatched ⟨["test=test1; Path=/"], none, ""⟩ ⟨"test1", (), 1⟩],
            ⟨⟨0, [⟨"test1", (), 1⟩, ⟨"test2", (), 1⟩, ⟨"test3", (), 1⟩], 1⟩, "test"⟩)
      ∧ ∃ X1 : server Unit,
          X1 ∈ (UpsertServer
              (⟨0, [⟨"test1", (), 1⟩, ⟨"test2", (), 1⟩, ⟨"test3", (), 1⟩], 1⟩ : RoundRobin Unit)
              "test1" () [Weight 5]).1.servers
            ∧ X1.id = "test1" ∧ X1.server = ()
            ∧ StickyLB.ServeHTTP (fun _ => true) 3
                ⟨(UpsertServer
                  (⟨0, [⟨"test1", (), 1⟩, ⟨"test2", (), 1⟩, ⟨"test3", (), 1⟩], 1⟩ :
                    RoundRobin Unit) "test1" () [Weight 5]).1, "test"⟩
                emptyWriter (requestWith "test" "test1")
              = some (.dispatched ⟨["test=test1; Path=/"], none, ""⟩ X1,
                  ⟨(UpsertServer
                    (⟨0, [⟨"test1", (), 1⟩, ⟨"test2", (), 1⟩, ⟨"test3", (), 1⟩], 1⟩ :
                      RoundRobin Unit) "test1" () [Weight 5]).1, "test"⟩) :=
  ⟨by with_unfolding_all rfl,
    (C16_sticky_session (fun _ => true) 3 stickyOnes (by decide)
      emptyWriter ⟨["test=test1; Path=/"], none, ""⟩ requestPlain rfl ⟨"test1", (), 1⟩
      ⟨⟨0, [⟨"test1", (), 1⟩, ⟨"test2", (), 1⟩, ⟨"test3", (), 1⟩], 1⟩, "test"⟩
      (by with_unfolding_all rfl) (by decide) (by decide)).2.1
      [(emptyWriter, requestWith "test" "test1"), (emptyWriter, requestWith "test" "test1")]
      (by
        intro q hq
        simp only [List.mem_cons, List.mem_singleton, List.not_mem_nil, or_false, or_self] at hq
        rw [hq]
        rfl),
    (C16_sticky_session (fun _ => true) 3 stickyOnes (by decide)
      emptyWriter ⟨["test=test1; Path=/"], none, ""⟩ requestPlain rfl ⟨"test1", (), 1⟩
      ⟨⟨0, [⟨"test1", (), 1⟩, ⟨"test2", (), 1⟩, ⟨"test3", (), 1⟩], 1⟩, "test"⟩
      (by with_unfolding_all rfl) (by decide) (by decide)).2.2 _ emptyWriter
      (requestWith "test" "test1")
      (KeepsRegistered.upsert _ "test1" () [5] KeepsRegistered.start) rfl⟩

/-- C17. For any registry state, identity `id`, handler `h` and weight `w >= 0`: calling
`UpsertServer(id, h, Weight(w))` twice in a row returns the same and leaves the same
state as calling it once: the same sequence of identities, handlers and weights, with
the cursor at index -1, threshold 0 and no error; so any number of following
`NextServer` calls return the same in both cases. -/
theorem C17_upsert_twice {H : Type} (r : RoundRobin H) (id : String) (h : H) (w : Int)
    (hw : 0 ≤ w) :
    UpsertServer (UpsertServer r id h [Weight w]).1 id h [Weight w]
        = UpsertServer r id h [Weight w]
      ∧ (UpsertServer r id h [Weight w]).2 = none
      ∧ (UpsertServer r id h [Weight w]).1.index = -1
      ∧ (UpsertServer r id h [Weight w]).1.currentWeight = 0
      ∧ ∀ fuel k, nthCall fuel (UpsertServer (UpsertServer r id h [Weight w]).1 id h [Weight w]).1 k
          = nthCall fuel (UpsertServer r id h [Weight w]).1 k := by
  have hws : ∀ v ∈ [w], 0 ≤ v := fun v hv => by
    rw [List.mem_singleton] at hv; rw [hv]; exact hw
  have hmap : ([w].map Weight : List (ServerOption H)) = [Weight w] := rfl
  have key : UpsertServer (UpsertServer r id h [Weight w]).1 id h [Weight w]
        = UpsertServer r id h [Weight w]
      ∧ (UpsertServer r id h [Weight w]).2 = none
      ∧ (UpsertServer r id h [Weight w]).1.index = -1
      ∧ (UpsertServer r id h [Weight w]).1.currentWeight = 0 := by
    cases hf : FindServerByID r id with
    | mk o idx =>
      cases o with
      | none =>
        have habs := (FindServerByID_none r id idx hf).2
        have h1 := UpsertServer_absent r id h [w] habs hws
        rw [hmap] at h1
        simp only [List.getLast?_singleton, Option.getD_some] at h1
        have h2 := UpsertServer_present (⟨-1, r.servers ++ [⟨id, h, w⟩], 0⟩ : RoundRobin H)
          id h [w] r.servers.length ⟨id, h, w⟩ (by simp) rfl
          (fun j s' hj hs' => by
            simp only at hs'
            rw [List.getElem?_append_left hj] at hs'
            exact habs s' (List.getElem?_mem hs')) hws
        rw [hmap] at h2
        simp only [List.getLast?_singleton, Option.getD_some] at h2
        rw [h1]
        refine ⟨?_, rfl, rfl, rfl⟩
        simp only
        rw [h2]
        simp
      | some s =>
        obtain ⟨j, _, hget, hid, hfirst⟩ := FindServerByID_some r id s idx hf
        have hj : j < r.servers.length := by
          rcases Nat.lt_or_ge j r.servers.length with h' | h'
          · exact h'
          · rw [List.getElem?_eq_none h'] at hget; simp at hget
        have h1 := UpsertServer_present r id h [w] j s hget hid hfirst hws
        rw [hmap] at h1
        simp only [List.getLast?_singleton, Option.getD_some] at h1
        have h2 := UpsertServer_present
          (⟨-1, r.servers.set j ⟨s.id, s.server, w⟩, 0⟩ : RoundRobin H)
          id h [w] j ⟨s.id, s.server, w⟩ (by simp [List.getElem?_set, hj]) hid
          (fun j' s' hj' hs' => by
            simp only at hs'
            rw [List.getElem?_set_ne (by omega)] at hs'
            exact hfirst j' s' hj' hs') hws
        rw [hmap] at h2
        simp only [List.getLast?_singleton, Option.getD_some] at h2
        rw [h1]
        refine ⟨?_, rfl, rfl, rfl⟩
        simp only
        rw [h2]
        simp
  refine ⟨key.1, key.2.1, key.2.2.1, key.2.2.2, ?_⟩
  intro fuel k
  rw [key.1]

/-- C17 on the registry `[a, b]`: upserting `b` with weight 4 twice equals upserting it
once. -/
theorem C17_upsert_twice_witness :
    UpsertServer (UpsertServer (⟨1, [⟨"a", 7, 1⟩, ⟨"b", 8, 2⟩], 2⟩ : RoundRobin Nat) "b" 9
        [Weight 4]).1 "b" 9 [Weight 4]
      = UpsertServer (⟨1, [⟨"a", 7, 1⟩, ⟨"b", 8, 2⟩], 2⟩ : RoundRobin Nat) "b" 9 [Weight 4] :=
  (C17_upsert_twice (⟨1, [⟨"a", 7, 1⟩, ⟨"b", 8, 2⟩], 2⟩ : RoundRobin Nat) "b" 9 4
    (by decide)).1

/-- C18. For any registry and identity `id`: when position `i` holds a server of identity
`id` and no earlier position does, `FindServerByID(id)` returns `(servers[i], i)`; when no
server has identity `id`, in particular on the empty registry, it returns `(nil, -1)`;
the returned position is -1 if and only if the returned server is `nil`.  The method
only reads the receiver: the embedding returns its two results and no new state. -/
theorem C18_find_server_by_id {H : Type} (r : RoundRobin H) (id : String) :
    (∀ (i : Nat) (s : server H), r.servers[i]? = some s → s.id = id →
        (∀ (j : Nat) (s' : server H), j < i → r.servers[j]? = some s' → s'.id ≠ id) →
        FindServerByID r id = (some s, (i : Int)))
      ∧ ((∀ s ∈ r.servers, s.id ≠ id) → FindServerByID r id = (none, -1))
      ∧ (r.servers = [] → FindServerByID r id = (none, -1))
      ∧ ((FindServerByID r id).2 = -1 ↔ (FindServerByID r id).1 = none) := by
  refine ⟨fun i s h1 h2 h3 => FindServerByID_of_first r id i s h1 h2 h3,
    FindServerByID_of_absent r id, ?_, ?_⟩
  · intro h
    exact FindServerByID_of_absent r id (fun s hs => by rw [h] at hs; simp at hs)
  · cases h : FindServerByID r id with
    | mk o idx =>
      cases o with
      | none =>
        show idx = -1 ↔ (none : Option (server H)) = none
        exact ⟨fun _ => rfl, fun _ => (FindServerByID_none r id idx h).1⟩
      | some s =>
        obtain ⟨j, h1, _⟩ := FindServerByID_some r id s idx h
        show idx = -1 ↔ some s = none
        constructor
        · intro h2
          omega
        · intro h2
          exact absurd h2 (by simp)

/-- C18 on the registry `[test1, test2, test3]`: `test3` is found at position 2, `test4`
is not found. -/
theorem C18_find_server_by_id_witness :
    FindServerByID (fresh registryOneZero) "test3" = (some ⟨"test3", (), 1⟩, 2)
      ∧ FindServerByID (fresh registryOneZero) "test4" = (none, -1) :=
  ⟨(C18_find_server_by_id (fresh registryOneZero) "test3").1 2 ⟨"test3", (), 1⟩ rfl rfl
      (fun j s' hj hs' => by
        have hj' : j = 0 ∨ j = 1 := by omega
        rcases hj' with rfl | rfl
        · have : s' = ⟨"test1", (), 1⟩ := by
            simpa [fresh, registryOneZero] using hs'.symm
          subst this
          decide
        · have : s' = ⟨"test2", (), 0⟩ := by
            simpa [fresh, registryOneZero] using hs'.symm
          subst this
          decide),
    (C18_find_server_by_id (fresh registryOneZero) "test4").2.1 (by decide)⟩

/-- C19. For a registry with non-negative weights of which one is positive, starting from
a freshly reset cursor and with at least `n` passes of fuel per call: the list
`naiveSchedule l` of the naive nested loop (thresholds `m, m - g, ..., g`, positions in
registration order, position `i` listed when `w_i >= t`) has length
`cycleLength l = (sum of the weights) / g > 0`; call number `k` of `NextServer` returns the
server at position `R[k mod |R|]` and leaves the index there; and the results, cursor
included, repeat with period `cycleLength l`. -/
theorem C19_naive_schedule {H : Type} (l : List (server H)) (hnn : ∀ s ∈ l, 0 ≤ s.weight)
    (hpos : ∃ s ∈ l, 0 < s.weight) (fuel : Nat) (hf : l.length ≤ fuel) :
    (naiveSchedule l).length = cycleLength l ∧ 0 < cycleLength l
      ∧ (∀ k, ∃ (i : Nat) (srv : server H) (r : RoundRobin H),
          (naiveSchedule l)[k % (naiveSchedule l).length]? = some i
            ∧ l[i]? = some srv
            ∧ nthCall fuel (fresh l) k = some (.ok srv, r)
            ∧ r.index = (i : Int))
      ∧ ∀ k, nthCall fuel (fresh l) (k + cycleLength l) = nthCall fuel (fresh l) k := by
  have hR := naiveSchedule_eq_callSteps l hnn hpos
  have hlenR : (naiveSchedule l).length = cycleLength l := by
    rw [hR]; simp
  have hL := cycleLength_pos l hnn hpos
  refine ⟨hlenR, hL, ?_, nthCall_add_cycle l hnn hpos fuel hf⟩
  intro k
  have hk : k % cycleLength l < cycleLength l := Nat.mod_lt _ hL
  obtain ⟨srv, hget, _, hcall⟩ := nthCall_schedule l hnn hpos fuel hf (k % cycleLength l)
  refine ⟨callStep (selects l) l.length (k % cycleLength l) % l.length, srv,
    cursorAfter l (callStep (selects l) l.length (k % cycleLength l)), ?_, hget, ?_, rfl⟩
  · rw [hlenR, hR, List.getElem?_map, List.getElem?_range hk]
    rfl
  · rw [nthCall_mod_cycle l hnn hpos fuel hf k]
    exact hcall

/-- C19 on the registry `[A weight 3, B weight 1]`: the naive schedule is positions
0, 0, 0, 1 and call 7 returns the server at its entry `7 mod 4`. -/
theorem C19_naive_schedule_witness :
    naiveSchedule registryAB = [0, 0, 0, 1]
      ∧ ∃ (i : Nat) (srv : server Unit) (r : RoundRobin Unit),
          (naiveSchedule registryAB)[7 % (naiveSchedule registryAB).length]? = some i
            ∧ registryAB[i]? = some srv
            ∧ nthCall 2 (fresh registryAB) 7 = some (.ok srv, r)
            ∧ r.index = (i : Int) :=
  ⟨by decide, (C19_naive_schedule registryAB (by decide) (by decide) 2 (by decide)).2.2.1 7⟩

/-- C20. For a registry with non-negative weights of which one is positive, starting from
a freshly reset cursor with no mutation in between and at least `n` passes of fuel per
call: call number `k` of `NextServer` returns a server and leaves a cursor with the same
registry, `0 <= index < n`, the returned server being `servers[index]`, and a threshold
`currentWeight` that is a positive multiple of the gcd `g` of the weights with
`g <= currentWeight <= max weight` and `currentWeight <= weight of the returned server`. -/
theorem C20_cursor_safety {H : Type} (l : List (server H)) (hnn : ∀ s ∈ l, 0 ≤ s.weight)
    (hpos : ∃ s ∈ l, 0 < s.weight) (fuel : Nat) (hf : l.length ≤ fuel) (k : Nat) :
    ∃ (srv : server H) (r : RoundRobin H),
      nthCall fuel (fresh l) k = some (.ok srv, r)
        ∧ r.servers = l
        ∧ 0 ≤ r.index ∧ r.index < (l.length : Int)
        ∧ l[r.index.toNat]? = some srv
        ∧ (∃ c : Int, 0 < c ∧ r.currentWeight = c * (gcdAll (weights l) : Int))
        ∧ (gcdAll (weights l) : Int) ≤ r.currentWeight
        ∧ r.currentWeight ≤ maxAll (weights l)
        ∧ r.currentWeight ≤ srv.weight := by
  obtain ⟨hlen, hg, hM, hmax, hw, _, _⟩ := registry_facts l hnn hpos
  obtain ⟨srv, hget, _, hcall⟩ := nthCall_schedule l hnn hpos fuel hf k
  have hsel := (callStep_spec (selects l) l.length (selects_window l hnn hpos) k).1
  generalize callStep (selects l) l.length k = s at hget hcall hsel
  have hi : s % l.length < l.length := Nat.mod_lt _ hlen
  have hρ : (s / l.length) % rounds l < rounds l := Nat.mod_lt _ hM
  obtain ⟨q, hq⟩ : ∃ q, rounds l - (s / l.length) % rounds l = q + 1 :=
    ⟨rounds l - (s / l.length) % rounds l - 1, by omega⟩
  have hqM : q + 1 ≤ rounds l := by omega
  have hqa : q + 1 ≤ unitsAt l (s % l.length) := by
    simp only [selects, emitsAt, decide_eq_true_eq] at hsel
    omega
  have hcw : (cursorAfter l s).currentWeight = (((q + 1) * gcdAll (weights l) : Nat) : Int) := by
    simp only [cursorAfter, hq]
  refine ⟨srv, cursorAfter l s, hcall, rfl, ?_, ?_, ?_, ?_, ?_, ?_, ?_⟩
  · simp only [cursorAfter]; omega
  · simp only [cursorAfter]; omega
  · simpa [cursorAfter] using hget
  · refine ⟨((q + 1 : Nat) : Int), by omega, ?_⟩
    rw [hcw]; push_cast; ring
  · rw [hcw]
    have : 1 * gcdAll (weights l) ≤ (q + 1) * gcdAll (weights l) :=
      Nat.mul_le_mul_right _ (by omega)
    omega
  · rw [hcw, ← maxWeight_eq_maxAll l (List.ne_nil_of_length_pos hlen) hnn, hmax]
    have : (q + 1) * gcdAll (weights l) ≤ rounds l * gcdAll (weights l) :=
      Nat.mul_le_mul_right _ hqM
    omega
  · rw [hcw, hw _ _ hget]
    have : (q + 1) * gcdAll (weights l) ≤ unitsAt l (s % l.length) * gcdAll (weights l) :=
      Nat.mul_le_mul_right _ hqa
    omega

/-- C20 on the registry with weights 1, 0, 1, at call 4. -/
theorem C20_cursor_safety_witness :
    ∃ (srv : server Unit) (r : RoundRobin Unit),
      nthCall 3 (fresh registryOneZero) 4 = some (.ok srv, r)
        ∧ r.servers = registryOneZero
        ∧ 0 ≤ r.index ∧ r.index < (registryOneZero.length : Int)
        ∧ registryOneZero[r.index.toNat]? = some srv
        ∧ (∃ c : Int, 0 < c ∧ r.currentWeight = c * (gcdAll (weights registryOneZero) : Int))
        ∧ (gcdAll (weights registryOneZero) : Int) ≤ r.currentWeight
        ∧ r.currentWeight ≤ maxAll (weights registryOneZero)
        ∧ r.currentWeight ≤ srv.weight :=
  C20_cursor_safety registryOneZero (by decide) (by decide) 3 (by decide) 4

end SandboxLB
